import Mathlib

/-!
# Verification of the Netpbm codec (PBM / PGM readers, writers and transforms)

This file is a shallow embedding, in Lean 4, of the Go sources of the
Netpbm repository:

* `PGM.go` — the greyscale codec: `ReadPGM`, `Save`, `Invert`, `Flip`,
  `Flop`, `Set`, `SetMagicNumber`, `SetMaxValue`;
* the boolean-backed bitmap codec (`ReadPBM` on `data [][]bool`, with
  `Save`, `Invert`, `Flip`, `Flop`, `Set`, `SetMagicNumber`);
* the integer-backed bitmap reader (`ReadPBM` on `data [][]int`).

Modelling conventions:

* A file is presented to the decoder as a pair: the list of text lines
  that `bufio.Scanner` would yield (each a `List Char`), and the list of
  body bytes available to `file.Read` (each a `Nat`; bytes of a real
  file are `< 256` but the model does not need the bound except where a
  theorem states it).  This is the intended I/O semantics described by
  the sources: the header and ASCII bodies are read line by line, the
  packed binary bodies byte by byte.
* Go's `bufio.Scanner` reports `scanner.Err() == nil` at plain
  end-of-file, so the source's `readNextLine` returns an empty line and
  a nil error once the lines are exhausted; the model does the same.
  Underlying I/O failures are outside the model.
* Go slice indexing panics when out of bounds; wherever the source can
  panic the model returns the distinguished outcome `Result.panic`.
  Read access that the source performs only at indices proved in bounds
  is modelled with `List.getD`.
* Go `int` is modelled by `Int` (no overflow: no claim involves values
  near 2^63) and `uint8` by `Nat` together with explicit `% 256`
  reductions exactly at the conversions the source performs.
-/

namespace Netpbm

/-! ## Characters, whitespace, tokenization (strings.TrimSpace / strings.Fields) -/

/-- Whitespace in the sense of `unicode.IsSpace`, restricted to the ASCII
whitespace characters that can occur in the inputs the codec handles. -/
def isSpaceChar (c : Char) : Bool :=
  c = ' ' || c = '\t' || c = '\n' || c = '\r'

/-- `strings.TrimSpace`: drop leading and trailing whitespace. -/
def trim (l : List Char) : List Char :=
  ((l.dropWhile isSpaceChar).reverse.dropWhile isSpaceChar).reverse

/-- Fuel-structured worker for `fields`; `fuel ≥ l.length` suffices, and
the fuel only serves to make the recursion structural (kernel-reducible). -/
def fieldsFuel : Nat → List Char → List (List Char)
  | 0, _ => []
  | _, [] => []
  | fuel + 1, c :: cs =>
    if isSpaceChar c then fieldsFuel fuel cs
    else (c :: cs.takeWhile (fun d => !isSpaceChar d))
         :: fieldsFuel fuel (cs.dropWhile (fun d => !isSpaceChar d))

/-- `strings.Fields`: split around runs of whitespace, dropping empty fields. -/
def fields (l : List Char) : List (List Char) :=
  fieldsFuel l.length l

/-- The comment test of the source's `readNextLine`: the (already trimmed)
line starts with the character `#`. -/
def isCommentLine : List Char → Bool
  | [] => false
  | c :: _ => c = '#'

/-! ## strconv.Atoi -/

/-- The numeric value of a decimal digit character, if it is one. -/
def digitVal (c : Char) : Option Nat :=
  if 48 ≤ c.toNat ∧ c.toNat ≤ 57 then some (c.toNat - 48) else none

/-- Accumulating decimal parse of a digit string. -/
def parseDigitsAux : List Char → Nat → Option Nat
  | [], acc => some acc
  | c :: cs, acc =>
    match digitVal c with
    | none => none
    | some d => parseDigitsAux cs (acc * 10 + d)

/-- Parse a nonempty all-digit string. -/
def parseDigits : List Char → Option Nat
  | [] => none
  | l => parseDigitsAux l 0

/-- `strconv.Atoi`: optional sign, then a nonempty digit string spanning the
whole input.  (Go additionally errors on values outside 64 bits; no claim
involves such values, so the model is unbounded.) -/
def atoi (l : List Char) : Option Int :=
  match l with
  | [] => none
  | c :: rest =>
    if c = '-' then (parseDigits rest).map (fun n => -(n : Int))
    else if c = '+' then (parseDigits rest).map (fun n => (n : Int))
    else (parseDigits (c :: rest)).map (fun n => (n : Int))

/-- `width, _ := strconv.Atoi(...)`: the source drops the error, keeping the
zero value `Atoi` returns on failure. -/
def atoiOrZero (l : List Char) : Int :=
  (atoi l).getD 0

/-! ## Decimal printing (fmt.Fprintf "%d") -/

/-- The character of a decimal digit. -/
def digitChar (d : Nat) : Char :=
  Char.ofNat (48 + d)

/-- Big-endian decimal digits of `n`, fuel-structured so that it reduces
definitionally; `fuel ≥ n` suffices. -/
def natCharsAux : Nat → Nat → List Char → List Char
  | _, 0, acc => acc
  | 0, _ + 1, acc => acc
  | fuel + 1, n + 1, acc =>
    natCharsAux fuel ((n + 1) / 10) (digitChar ((n + 1) % 10) :: acc)

/-- `fmt.Fprintf "%d"` of a natural number. -/
def natChars (n : Nat) : List Char :=
  match n with
  | 0 => ['0']
  | n + 1 => natCharsAux (n + 1) (n + 1) []

/-- `fmt.Fprintf "%d"` of a Go `int`. -/
def intChars (n : Int) : List Char :=
  if n < 0 then '-' :: natChars (-n).toNat else natChars n.toNat

/-! ## Decode outcomes -/

/-- The error values the readers can return.  `atoiError` stands for a
`strconv` error returned verbatim from the pixel loops, `eofError` for the
`io.EOF` that `file.Read` returns on an exhausted stream. -/
inductive DecodeError : Type
  | unsupportedFileType
  | invalidImageDimensions
  | invalidMaxValue
  | atoiError
  | eofError
deriving DecidableEq, Repr

/-- Outcome of a decode: a runtime panic (out-of-range slice index), an
error return, or a successfully built image. -/
inductive Result (α : Type) : Type
  | panic : Result α
  | error : DecodeError → Result α
  | ok : α → Result α
deriving DecidableEq, Repr

/-- A text line as produced by `bufio.Scanner`. -/
abbrev Line := List Char

/-- The source's `readNextLine` closure: skip blank and `#`-comment lines
and return the next trimmed line.  At end of input Go's scanner stops and
`scanner.Err()` is `nil`, so the closure returns an empty line and no
error; the model therefore returns `[]` with the empty remainder. -/
def readNextLine : List Line → Line × List Line
  | [] => ([], [])
  | l :: rest =>
    let t := trim l
    if t ≠ [] ∧ ¬ isCommentLine t then (t, rest) else readNextLine rest

/-- `file.Read(buffer)` on a regular file: with an exhausted stream it
returns `io.EOF` (modelled `none`); otherwise it fills the buffer with the
next `min buffer.length remaining.length` bytes, leaving the tail of the
buffer as it was (stale contents from the previous read), and returns the
new buffer contents together with the not-yet-consumed bytes. -/
def fileRead (remaining buffer : List Nat) : Option (List Nat × List Nat) :=
  if remaining = [] then none
  else
    let k := min buffer.length remaining.length
    some (remaining.take k ++ buffer.drop k, remaining.drop k)

/-! ## The image structures -/

/-- `PGM` of `PGM.go`: `data [][]uint8`, `width, height int`,
`magicNumber string`, `max int`.  Pixels are `Nat` values kept `< 256` by
every write the source performs. -/
structure PGM : Type where
  data : List (List Nat)
  width : Int
  height : Int
  magicNumber : List Char
  max : Int
deriving DecidableEq, Repr

/-- The boolean-backed `PBM`: `data [][]bool`. -/
structure PBM : Type where
  data : List (List Bool)
  width : Int
  height : Int
  magicNumber : List Char
deriving DecidableEq, Repr

/-- The integer-backed `PBM` of the second bitmap reader: `data [][]int`. -/
structure PBMInt : Type where
  data : List (List Int)
  width : Int
  height : Int
  magicNumber : List Char
deriving DecidableEq, Repr

/-! ## ASCII row filling (the `for j, token := range tokens` loops) -/

/-- The shared shape of the three ASCII pixel loops
`for j, token := range tokens`: parse each token, store `store pixel` at
index `j` of the row; a `j` at or past the row length is the Go
out-of-range panic.  The three readers differ only in `store`. -/
def fillRowWith {α : Type} (store : Int → α) :
    List Line → Nat → List α → Result (List α)
  | [], _, row => .ok row
  | t :: ts, j, row =>
    match atoi t with
    | none => .error .atoiError
    | some pixel =>
      if j < row.length then
        fillRowWith store ts (j + 1) (row.set j (store pixel))
      else .panic

/-- The P2 pixel loop body: `data[i][j] = uint8(pixel)`. -/
def fillRowPGM : List Line → Nat → List Nat → Result (List Nat) :=
  fillRowWith (fun pixel => (pixel % 256).toNat)

/-- The P1 pixel loop of the boolean reader: `data[i][j] = pixel == 1`. -/
def fillRowPBM : List Line → Nat → List Bool → Result (List Bool) :=
  fillRowWith (fun pixel => pixel == 1)

/-- The P1 pixel loop of the integer reader: `data[i][j] = pixel`. -/
def fillRowPBMInt : List Line → Nat → List Int → Result (List Int) :=
  fillRowWith (fun pixel => pixel)

/-- The shared shape of the outer `for i := 0; i < height; i++` ASCII
body loops: each iteration reads the next line, splits it into fields
and fills the zero-initialised row `make([]T, width)`. -/
def readRowsWith {α : Type} (zero : α) (store : Int → α) (w : Nat) :
    Nat → List Line → Result (List (List α))
  | 0, _ => .ok []
  | fuel + 1, ls =>
    let p := readNextLine ls
    match fillRowWith store (fields p.1) 0 (List.replicate w zero) with
    | .panic => .panic
    | .error e => .error e
    | .ok row =>
      match readRowsWith zero store w fuel p.2 with
      | .panic => .panic
      | .error e => .error e
      | .ok rows => .ok (row :: rows)

/-- The P2 ASCII body loop. -/
def readRowsPGM (w : Nat) : Nat → List Line → Result (List (List Nat)) :=
  readRowsWith 0 (fun pixel => (pixel % 256).toNat) w

/-- The P1 row loop of the boolean reader. -/
def readRowsPBM (w : Nat) : Nat → List Line → Result (List (List Bool)) :=
  readRowsWith false (fun pixel => pixel == 1) w

/-- The P1 row loop of the integer reader. -/
def readRowsPBMInt (w : Nat) : Nat → List Line → Result (List (List Int)) :=
  readRowsWith 0 (fun pixel => pixel) w


/-! ## Packed binary bodies -/

/-- `(buffer[j / 8] >> (7 - j % 8)) & 1`. -/
def p4Bit (buf : List Nat) (j : Nat) : Nat :=
  ((buf.getD (j / 8) 0) >>> (7 - j % 8)) &&& 1

/-- One P4 row: the inner `for j := 0; j < width; j++` loop writes
`bit == 1` at every index of the width-length row, which is exactly a map
over `0, …, width-1`. -/
def p4RowBool (w : Nat) (buf : List Nat) : List Bool :=
  (List.range w).map (fun j => p4Bit buf j == 1)

/-- One P4 row of the integer reader: it stores `int(bit)`. -/
def p4RowInt (w : Nat) (buf : List Nat) : List Int :=
  (List.range w).map (fun j => (p4Bit buf j : Int))

/-- The P4 outer loop: one `file.Read` into the shared `bytesPerRow`
buffer per row, then the bit extraction.  `rowOf` is the per-row bit
extraction of the respective reader. -/
def readRowsP4 {α : Type} (rowOf : List Nat → List α) :
    Nat → List Nat → List Nat → Result (List (List α))
  | 0, _, _ => .ok []
  | fuel + 1, remaining, buffer =>
    match fileRead remaining buffer with
    | none => .error .eofError
    | some pr =>
      match readRowsP4 rowOf fuel pr.2 pr.1 with
      | .panic => .panic
      | .error e => .error e
      | .ok rows => .ok (rowOf pr.1 :: rows)

/-- The P5 assignment `data[i][j] = uint8(buffer[i*width+j])`. -/
def p5Data (w h : Nat) (buf : List Nat) : List (List Nat) :=
  (List.range h).map (fun i => (List.range w).map (fun j => buf.getD (i * w + j) 0))

/-! ## The readers -/

/-- `ReadPGM` of `PGM.go`, from the magic-number check on.  `lines` are
the scanner's text lines, `bytes` the stream `file.Read` draws from for
the P5 body.  Positive `width`/`height` loops run `toNat` many times,
matching Go's `for i := 0; i < height`. -/
def ReadPGM (lines : List Line) (bytes : List Nat) : Result PGM :=
  let m := readNextLine lines
  let magicNumber := m.1
  if magicNumber ≠ ['P', '2'] ∧ magicNumber ≠ ['P', '5'] then
    .error .unsupportedFileType
  else
    let d := readNextLine m.2
    let dimTokens := fields d.1
    if dimTokens.length ≠ 2 then .error .invalidImageDimensions
    else
      let width := atoiOrZero (dimTokens.getD 0 [])
      let height := atoiOrZero (dimTokens.getD 1 [])
      let mx := readNextLine d.2
      match atoi mx.1 with
      | none => .error .invalidMaxValue
      | some maxValue =>
        if 0 < width ∧ 0 < height then
          if magicNumber = ['P', '2'] then
            match readRowsPGM width.toNat height.toNat mx.2 with
            | .panic => .panic
            | .error e => .error e
            | .ok data => .ok ⟨data, width, height, magicNumber, maxValue⟩
          else if magicNumber = ['P', '5'] then
            match fileRead bytes (List.replicate (width.toNat * height.toNat) 0) with
            | none => .error .eofError
            | some pr =>
              .ok ⟨p5Data width.toNat height.toNat pr.1, width, height, magicNumber, maxValue⟩
          else
            .ok ⟨List.replicate height.toNat (List.replicate width.toNat 0),
                 width, height, magicNumber, maxValue⟩
        else
          .ok ⟨[], width, height, magicNumber, maxValue⟩

/-- `ReadPBM` of the boolean-backed bitmap reader. -/
def ReadPBM (lines : List Line) (bytes : List Nat) : Result PBM :=
  let m := readNextLine lines
  let magicNumber := m.1
  if magicNumber ≠ ['P', '1'] ∧ magicNumber ≠ ['P', '4'] then
    .error .unsupportedFileType
  else
    let d := readNextLine m.2
    let dimTokens := fields d.1
    if dimTokens.length ≠ 2 then .error .invalidImageDimensions
    else
      let width := atoiOrZero (dimTokens.getD 0 [])
      let height := atoiOrZero (dimTokens.getD 1 [])
      if 0 < width ∧ 0 < height then
        if magicNumber = ['P', '1'] then
          match readRowsPBM width.toNat height.toNat d.2 with
          | .panic => .panic
          | .error e => .error e
          | .ok data => .ok ⟨data, width, height, magicNumber⟩
        else if magicNumber = ['P', '4'] then
          let w := width.toNat
          let paddingBits := (8 - w % 8) % 8
          let bytesPerRow := (w + paddingBits + 7) / 8
          match readRowsP4 (p4RowBool w) height.toNat bytes (List.replicate bytesPerRow 0) with
          | .panic => .panic
          | .error e => .error e
          | .ok data => .ok ⟨data, width, height, magicNumber⟩
        else
          .ok ⟨List.replicate height.toNat (List.replicate width.toNat false),
               width, height, magicNumber⟩
      else
        .ok ⟨[], width, height, magicNumber⟩

/-- `ReadPBM` of the integer-backed bitmap reader (`data [][]int`). -/
def ReadPBMInt (lines : List Line) (bytes : List Nat) : Result PBMInt :=
  let m := readNextLine lines
  let magicNumber := m.1
  if magicNumber ≠ ['P', '1'] ∧ magicNumber ≠ ['P', '4'] then
    .error .unsupportedFileType
  else
    let d := readNextLine m.2
    let dimTokens := fields d.1
    if dimTokens.length ≠ 2 then .error .invalidImageDimensions
    else
      let width := atoiOrZero (dimTokens.getD 0 [])
      let height := atoiOrZero (dimTokens.getD 1 [])
      if 0 < width ∧ 0 < height then
        if magicNumber = ['P', '1'] then
          match readRowsPBMInt width.toNat height.toNat d.2 with
          | .panic => .panic
          | .error e => .error e
          | .ok data => .ok ⟨data, width, height, magicNumber⟩
        else if magicNumber = ['P', '4'] then
          let w := width.toNat
          let paddingBits := (8 - w % 8) % 8
          let bytesPerRow := (w + paddingBits + 7) / 8
          match readRowsP4 (p4RowInt w) height.toNat bytes (List.replicate bytesPerRow 0) with
          | .panic => .panic
          | .error e => .error e
          | .ok data => .ok ⟨data, width, height, magicNumber⟩
        else
          .ok ⟨List.replicate height.toNat (List.replicate width.toNat 0),
               width, height, magicNumber⟩
      else
        .ok ⟨[], width, height, magicNumber⟩

/-! ## Save (the ASCII writers) -/

/-- `PGM.Save`: the text lines written to the destination file.  The
header `"%s\n%d %d\n%d\n"` contributes three lines; then each row is the
concatenation of `"%d "` per pixel, newline-terminated.  The source
indexes `pgm.data[i][j]` for `i < height`, `j < width`; that access is in
bounds for every grid a decode produces (`getD` models it). -/
def PGM.Save (pgm : PGM) : List Line :=
  pgm.magicNumber
  :: (intChars pgm.width ++ ' ' :: intChars pgm.height)
  :: intChars pgm.max
  :: (List.range pgm.height.toNat).map (fun i =>
      ((List.range pgm.width.toNat).map (fun j =>
        natChars ((pgm.data.getD i []).getD j 0) ++ [' '])).flatten)

/-- `PBM.Save`: as for PGM but without a max-value line, booleans written
through `map[bool]int{false: 0, true: 1}`. -/
def PBM.Save (pbm : PBM) : List Line :=
  pbm.magicNumber
  :: (intChars pbm.width ++ ' ' :: intChars pbm.height)
  :: (List.range pbm.height.toNat).map (fun i =>
      ((List.range pbm.width.toNat).map (fun j =>
        (if (pbm.data.getD i []).getD j false then ['1'] else ['0']) ++ [' '])).flatten)

/-! ## Transforms -/

/-- Apply `f` to the first `n` elements of a list: the effect of
`for k := 0; k < n; k++ { l[k] = f(l[k]) }` on a list of length ≥ n.
(Go would panic if the list were shorter than `n`; every call below is
made on grids where it is not.) -/
def mapBelow {α : Type} (f : α → α) : Nat → List α → List α
  | 0, l => l
  | _, [] => []
  | n + 1, a :: l => f a :: mapBelow f n l

/-- `uint8(pgm.max) - pgm.data[i][j]`: the conversion truncates `max` to
8 bits and the subtraction wraps modulo 256. -/
def invertPixel (max : Int) (p : Nat) : Nat :=
  ((max % 256 - p) % 256).toNat

/-- `PGM.Invert`. -/
def PGM.Invert (pgm : PGM) : PGM :=
  { pgm with
    data := mapBelow (fun row => mapBelow (invertPixel pgm.max) pgm.width.toNat row)
              pgm.height.toNat pgm.data }

/-- `PBM.Invert`: boolean negation per pixel. -/
def PBM.Invert (pbm : PBM) : PBM :=
  { pbm with
    data := mapBelow (fun row => mapBelow not pbm.width.toNat row)
              pbm.height.toNat pbm.data }

/-- The simultaneous swap `l[a], l[b] = l[b], l[a]`. -/
def swapAt {α : Type} (l : List α) (a b : Nat) (dflt : α) : List α :=
  (l.set a (l.getD b dflt)).set b (l.getD a dflt)

/-- The `for j := 0; j < width/2; j++` swap loop of `Flip`, applied to one
row: `fuel` counts the remaining iterations, `j` the current index. -/
def flipRowAux {α : Type} (w : Nat) (dflt : α) : Nat → Nat → List α → List α
  | _, 0, row => row
  | j, fuel + 1, row => flipRowAux w dflt (j + 1) fuel (swapAt row j (w - j - 1) dflt)

/-- One row of `Flip`: swap index `j` with `width-j-1` for `j < width/2`. -/
def flipRow {α : Type} (w : Nat) (dflt : α) (row : List α) : List α :=
  flipRowAux w dflt 0 (w / 2) row

/-- `PGM.Flip`. -/
def PGM.Flip (pgm : PGM) : PGM :=
  { pgm with data := mapBelow (flipRow pgm.width.toNat 0) pgm.height.toNat pgm.data }

/-- `PBM.Flip`. -/
def PBM.Flip (pbm : PBM) : PBM :=
  { pbm with data := mapBelow (flipRow pbm.width.toNat false) pbm.height.toNat pbm.data }

/-- `data[i][j] = src[j]` for `j < w`, keeping later entries: the
elementwise half of one `Flop` row swap. -/
def copyBelow {α : Type} : Nat → List α → List α → List α
  | 0, dst, _ => dst
  | _, [], _ => []
  | _ + 1, d :: ds, [] => d :: ds
  | n + 1, _ :: ds, s :: ss => s :: copyBelow n ds ss

/-- The `for i := 0; i < height/2; i++` loop of `Flop`: rows `i` and
`height-i-1` exchange their first `width` elements. -/
def flopAux {α : Type} (w h : Nat) :
    Nat → Nat → List (List α) → List (List α)
  | _, 0, data => data
  | i, fuel + 1, data =>
    let r1 := data.getD i []
    let r2 := data.getD (h - i - 1) []
    flopAux w h (i + 1) fuel
      ((data.set i (copyBelow w r1 r2)).set (h - i - 1) (copyBelow w r2 r1))

/-- `PGM.Flop`. -/
def PGM.Flop (pgm : PGM) : PGM :=
  { pgm with
    data := flopAux pgm.width.toNat pgm.height.toNat 0 (pgm.height.toNat / 2) pgm.data }

/-- `PBM.Flop`. -/
def PBM.Flop (pbm : PBM) : PBM :=
  { pbm with
    data := flopAux pbm.width.toNat pbm.height.toNat 0 (pbm.height.toNat / 2) pbm.data }

/-- `PGM.Set`: `pgm.data[y][x] = value`; `none` models the out-of-range
panic. -/
def PGM.Set (pgm : PGM) (x y : Int) (value : Nat) : Option PGM :=
  if 0 ≤ y ∧ y.toNat < pgm.data.length then
    let row := pgm.data.getD y.toNat []
    if 0 ≤ x ∧ x.toNat < row.length then
      some { pgm with data := pgm.data.set y.toNat (row.set x.toNat value) }
    else none
  else none

/-- `PBM.Set`. -/
def PBM.Set (pbm : PBM) (x y : Int) (value : Bool) : Option PBM :=
  if 0 ≤ y ∧ y.toNat < pbm.data.length then
    let row := pbm.data.getD y.toNat []
    if 0 ≤ x ∧ x.toNat < row.length then
      some { pbm with data := pbm.data.set y.toNat (row.set x.toNat value) }
    else none
  else none

/-- `PGM.SetMagicNumber`. -/
def PGM.SetMagicNumber (pgm : PGM) (magicNumber : List Char) : PGM :=
  { pgm with magicNumber := magicNumber }

/-- `PBM.SetMagicNumber`. -/
def PBM.SetMagicNumber (pbm : PBM) (magicNumber : List Char) : PBM :=
  { pbm with magicNumber := magicNumber }

/-- `PGM.SetMaxValue`: the parameter is a `uint8`, stored as `int`. -/
def PGM.SetMaxValue (pgm : PGM) (maxValue : Nat) : PGM :=
  { pgm with max := (maxValue : Int) }

/-! ## Lemmas: decimal printing and parsing round-trip -/

theorem toNat_digitChar {d : Nat} (h : d < 10) : (digitChar d).toNat = 48 + d := by
  interval_cases d <;> decide

theorem digitVal_digitChar {d : Nat} (h : d < 10) : digitVal (digitChar d) = some d := by
  rw [digitVal, toNat_digitChar h, if_pos (by omega)]
  congr 1
  omega

theorem isSpaceChar_digitChar {d : Nat} (h : d < 10) : isSpaceChar (digitChar d) = false := by
  interval_cases d <;> decide

theorem digitChar_ne_dash {d : Nat} (h : d < 10) : digitChar d ≠ '-' := by
  interval_cases d <;> decide

theorem digitChar_ne_plus {d : Nat} (h : d < 10) : digitChar d ≠ '+' := by
  interval_cases d <;> decide

theorem digitChar_ne_hash {d : Nat} (h : d < 10) : digitChar d ≠ '#' := by
  interval_cases d <;> decide

theorem natCharsAux_append (fuel : Nat) : ∀ (n : Nat) (acc : List Char),
    natCharsAux fuel n acc = natCharsAux fuel n [] ++ acc := by
  induction fuel with
  | zero => intro n acc; cases n <;> simp [natCharsAux]
  | succ fuel ih =>
    intro n acc
    cases n with
    | zero => simp [natCharsAux]
    | succ m =>
      rw [natCharsAux, natCharsAux, ih _ (digitChar ((m + 1) % 10) :: acc),
        ih _ [digitChar ((m + 1) % 10)], List.append_assoc]
      rfl

theorem mem_natCharsAux {fuel : Nat} : ∀ {n : Nat} {acc : List Char} {c : Char},
    c ∈ natCharsAux fuel n acc → c ∈ acc ∨ ∃ d, d < 10 ∧ c = digitChar d := by
  induction fuel with
  | zero => intro n acc c hc; cases n <;> exact Or.inl hc
  | succ fuel ih =>
    intro n acc c hc
    cases n with
    | zero => exact Or.inl hc
    | succ m =>
      rw [natCharsAux] at hc
      rcases ih hc with hmem | hd
      · rcases List.mem_cons.mp hmem with h | h
        · exact Or.inr ⟨(m + 1) % 10, Nat.mod_lt _ (by norm_num), h⟩
        · exact Or.inl h
      · exact Or.inr hd

theorem mem_natChars {n : Nat} {c : Char} (hc : c ∈ natChars n) :
    ∃ d, d < 10 ∧ c = digitChar d := by
  cases n with
  | zero =>
    simp only [natChars, List.mem_singleton] at hc
    exact ⟨0, by norm_num, hc⟩
  | succ m =>
    rw [natChars] at hc
    rcases mem_natCharsAux hc with h | h
    · simp at h
    · exact h

theorem natChars_ne_nil (n : Nat) : natChars n ≠ [] := by
  cases n with
  | zero => simp [natChars]
  | succ m =>
    rw [natChars, natCharsAux, natCharsAux_append]
    simp

theorem parseDigitsAux_append (l : List Char) : ∀ (m : List Char) (a : Nat),
    parseDigitsAux (l ++ m) a =
      match parseDigitsAux l a with
      | none => none
      | some v => parseDigitsAux m v := by
  induction l with
  | nil => intro m a; simp [parseDigitsAux]
  | cons c cs ih =>
    intro m a
    rw [List.cons_append, parseDigitsAux, parseDigitsAux]
    cases digitVal c <;> simp [ih]

theorem parseDigitsAux_natCharsAux (fuel : Nat) : ∀ (n a : Nat), n ≤ fuel →
    parseDigitsAux (natCharsAux fuel n []) a =
      some (a * 10 ^ (natCharsAux fuel n []).length + n) := by
  induction fuel with
  | zero =>
    intro n a h
    interval_cases n
    simp [natCharsAux, parseDigitsAux]
  | succ fuel ih =>
    intro n a h
    cases n with
    | zero => simp [natCharsAux, parseDigitsAux]
    | succ m =>
      have hdiv : (m + 1) / 10 ≤ fuel := by omega
      rw [natCharsAux, natCharsAux_append, parseDigitsAux_append, ih _ a hdiv]
      simp only [parseDigitsAux, digitVal_digitChar (Nat.mod_lt _ (by norm_num)),
        List.length_append, List.length_singleton]
      have hpow : (10 : Nat) ^ ((natCharsAux fuel ((m + 1) / 10) []).length + 1)
          = 10 ^ (natCharsAux fuel ((m + 1) / 10) []).length * 10 := pow_succ 10 _
      rw [hpow]
      congr 1
      have := Nat.div_add_mod (m + 1) 10
      set P := (10 : Nat) ^ (natCharsAux fuel ((m + 1) / 10) []).length
      ring_nf
      omega

theorem parseDigits_natChars (n : Nat) : parseDigits (natChars n) = some n := by
  cases n with
  | zero => decide
  | succ m =>
    obtain ⟨c, cs, hc⟩ := List.exists_cons_of_ne_nil (natChars_ne_nil (m + 1))
    rw [hc]
    show parseDigitsAux (c :: cs) 0 = some (m + 1)
    rw [← hc, natChars, parseDigitsAux_natCharsAux _ _ _ (le_refl _)]
    simp

theorem atoi_natChars (n : Nat) : atoi (natChars n) = some (n : Int) := by
  obtain ⟨c, cs, hc⟩ := List.exists_cons_of_ne_nil (natChars_ne_nil n)
  obtain ⟨d, hd10, hd⟩ := mem_natChars (c := c) (by rw [hc]; exact List.mem_cons_self _ _)
  rw [hc, atoi, if_neg (hd ▸ digitChar_ne_dash hd10), if_neg (hd ▸ digitChar_ne_plus hd10),
    ← hc, parseDigits_natChars]
  rfl

theorem atoi_intChars (n : Int) : atoi (intChars n) = some n := by
  rw [intChars]
  split
  · next hneg =>
    rw [atoi, if_pos rfl, parseDigits_natChars]
    show some (-((-n).toNat : Int)) = some n
    congr 1
    omega
  · next hpos =>
    rw [atoi_natChars]
    congr 1
    omega

theorem atoiOrZero_intChars (n : Int) : atoiOrZero (intChars n) = n := by
  rw [atoiOrZero, atoi_intChars]
  rfl

theorem mem_intChars {n : Int} {c : Char} (hc : c ∈ intChars n) :
    c = '-' ∨ ∃ d, d < 10 ∧ c = digitChar d := by
  rw [intChars] at hc
  split at hc
  · rcases List.mem_cons.mp hc with h | h
    · exact Or.inl h
    · exact Or.inr (mem_natChars h)
  · exact Or.inr (mem_natChars hc)

theorem isSpaceChar_of_mem_intChars {n : Int} {c : Char} (hc : c ∈ intChars n) :
    isSpaceChar c = false := by
  rcases mem_intChars hc with rfl | ⟨d, hd10, rfl⟩
  · decide
  · exact isSpaceChar_digitChar hd10

theorem intChars_ne_nil (n : Int) : intChars n ≠ [] := by
  rw [intChars]
  split
  · simp
  · exact natChars_ne_nil _

/-! ## Lemmas: fields and trim -/

theorem fieldsFuel_mono : ∀ (fuel1 : Nat) (l : List Char) (fuel2 : Nat),
    l.length ≤ fuel1 → l.length ≤ fuel2 → fieldsFuel fuel1 l = fieldsFuel fuel2 l := by
  intro fuel1
  induction fuel1 with
  | zero =>
    intro l fuel2 h1 _
    have hl : l = [] := List.length_eq_zero.mp (by omega)
    subst hl
    cases fuel2 <;> rfl
  | succ fuel1 ih =>
    intro l fuel2 h1 h2
    cases l with
    | nil => cases fuel2 <;> rfl
    | cons c cs =>
      cases fuel2 with
      | zero => simp at h2
      | succ fuel2 =>
        rw [fieldsFuel, fieldsFuel]
        simp only [List.length_cons] at h1 h2
        by_cases h : isSpaceChar c
        · rw [if_pos h, if_pos h]
          exact ih cs fuel2 (by omega) (by omega)
        · rw [if_neg h, if_neg h]
          have hd := (List.dropWhile_sublist
            (l := cs) (p := fun d => !isSpaceChar d)).length_le
          rw [ih (cs.dropWhile (fun d => !isSpaceChar d)) fuel2 (by omega) (by omega)]

theorem fieldsFuel_succ (fuel : Nat) (c : Char) (cs : List Char) :
    fieldsFuel (fuel + 1) (c :: cs)
      = if isSpaceChar c then fieldsFuel fuel cs
        else (c :: cs.takeWhile (fun d => !isSpaceChar d))
             :: fieldsFuel fuel (cs.dropWhile (fun d => !isSpaceChar d)) := rfl

theorem fields_cons_space {c : Char} (l : List Char) (h : isSpaceChar c = true) :
    fields (c :: l) = fields l := by
  show fieldsFuel (l.length + 1) (c :: l) = fields l
  rw [fieldsFuel_succ, if_pos h]
  rfl

theorem fields_cons_not_space {c : Char} (cs : List Char) (h : isSpaceChar c = false) :
    fields (c :: cs) = (c :: cs.takeWhile (fun d => !isSpaceChar d))
      :: fields (cs.dropWhile (fun d => !isSpaceChar d)) := by
  show fieldsFuel (cs.length + 1) (c :: cs) = _
  rw [fieldsFuel_succ, if_neg (by simp [h])]
  congr 1
  have hd := (List.dropWhile_sublist (l := cs) (p := fun d => !isSpaceChar d)).length_le
  exact fieldsFuel_mono _ _ _ (by omega) (by omega)

theorem fields_all_space {l : List Char} (h : ∀ c ∈ l, isSpaceChar c = true) :
    fields l = [] := by
  induction l with
  | nil => rfl
  | cons c cs ih =>
    rw [fields_cons_space _ (h c (List.mem_cons_self _ _))]
    exact ih (fun d hd => h d (List.mem_cons_of_mem _ hd))

theorem takeWhile_eq_self_of_all {p : Char → Bool} {t : List Char}
    (h : ∀ c ∈ t, p c = true) : t.takeWhile p = t := by
  induction t with
  | nil => rfl
  | cons c cs ih =>
    rw [List.takeWhile_cons, if_pos (h c (List.mem_cons_self _ _))]
    rw [ih (fun d hd => h d (List.mem_cons_of_mem _ hd))]

theorem dropWhile_eq_nil_of_all {p : Char → Bool} {t : List Char}
    (h : ∀ c ∈ t, p c = true) : t.dropWhile p = [] := by
  induction t with
  | nil => rfl
  | cons c cs ih =>
    rw [List.dropWhile_cons, if_pos (h c (List.mem_cons_self _ _))]
    exact ih (fun d hd => h d (List.mem_cons_of_mem _ hd))

theorem dropWhile_eq_self_of_head {p : Char → Bool} {c : Char} {l : List Char}
    (h : p c = false) : (c :: l).dropWhile p = c :: l := by
  rw [List.dropWhile_cons, if_neg (by simp [h])]

/-- `fields []` does not reduce definitionally (well-founded definition). -/
theorem fields_nil : fields [] = [] := rfl

/-- Splitting off one whitespace-free token followed by a space. -/
theorem fields_token {t : List Char} (r : List Char) (ht : t ≠ [])
    (hnw : ∀ c ∈ t, isSpaceChar c = false) :
    fields (t ++ ' ' :: r) = t :: fields r := by
  obtain ⟨c, cs, rfl⟩ := List.exists_cons_of_ne_nil ht
  rw [List.cons_append, fields_cons_not_space _ (hnw c (List.mem_cons_self _ _))]
  have hcs : ∀ d ∈ cs, (fun d => !isSpaceChar d) d = true := by
    intro d hd
    simp [hnw d (List.mem_cons_of_mem _ hd)]
  have htake : (cs ++ ' ' :: r).takeWhile (fun d => !isSpaceChar d) = cs := by
    rw [List.takeWhile_append, takeWhile_eq_self_of_all hcs, if_pos rfl,
      List.takeWhile_cons, if_neg (by decide), List.append_nil]
  have hdrop : (cs ++ ' ' :: r).dropWhile (fun d => !isSpaceChar d) = ' ' :: r := by
    rw [List.dropWhile_append, dropWhile_eq_nil_of_all hcs, if_pos List.isEmpty_nil,
      List.dropWhile_cons, if_neg (by decide)]
  rw [htake, hdrop, fields_cons_space _ (by decide)]

/-- A single whitespace-free token is one field. -/
theorem fields_single {t : List Char} (ht : t ≠ [])
    (hnw : ∀ c ∈ t, isSpaceChar c = false) : fields t = [t] := by
  obtain ⟨c, cs, rfl⟩ := List.exists_cons_of_ne_nil ht
  rw [fields_cons_not_space _ (hnw c (List.mem_cons_self _ _))]
  have hcs : ∀ d ∈ cs, (fun d => !isSpaceChar d) d = true := by
    intro d hd
    simp [hnw d (List.mem_cons_of_mem _ hd)]
  rw [takeWhile_eq_self_of_all hcs, dropWhile_eq_nil_of_all hcs, fields_nil]

theorem fields_dropWhile (l : List Char) :
    fields (l.dropWhile isSpaceChar) = fields l := by
  induction l with
  | nil => rfl
  | cons c cs ih =>
    by_cases h : isSpaceChar c
    · rw [List.dropWhile_cons, if_pos h, ih, fields_cons_space _ h]
    · rw [dropWhile_eq_self_of_head (by simp [h])]

theorem fields_append_space (l : List Char) {w : List Char}
    (hw : ∀ c ∈ w, isSpaceChar c = true) : fields (l ++ w) = fields l := by
  match l with
  | [] =>
    rw [List.nil_append, fields_nil]
    exact fields_all_space hw
  | c :: cs =>
    by_cases h : isSpaceChar c
    · rw [List.cons_append, fields_cons_space _ h, fields_cons_space _ h]
      exact fields_append_space cs hw
    · rw [List.cons_append, fields_cons_not_space _ (by simp [h]),
        fields_cons_not_space _ (by simp [h])]
      by_cases hall : ∀ d ∈ cs, isSpaceChar d = false
      · have hcs : ∀ d ∈ cs, (fun d => !isSpaceChar d) d = true := by
          intro d hd; simp [hall d hd]
        have htw : w.takeWhile (fun d => !isSpaceChar d) = [] := by
          cases w with
          | nil => rfl
          | cons x xs =>
            rw [List.takeWhile_cons, if_neg (by simp [hw x (List.mem_cons_self _ _)])]
        have hdw : w.dropWhile (fun d => !isSpaceChar d) = w := by
          cases w with
          | nil => rfl
          | cons x xs =>
            rw [List.dropWhile_cons, if_neg (by simp [hw x (List.mem_cons_self _ _)])]
        rw [List.takeWhile_append, takeWhile_eq_self_of_all hcs, if_pos rfl, htw,
          List.append_nil, List.dropWhile_append, dropWhile_eq_nil_of_all hcs,
          if_pos List.isEmpty_nil, hdw, fields_all_space hw, fields_nil]
      · push_neg at hall
        obtain ⟨d0, hd0mem, hd0⟩ := hall
        have hne : ¬ ∀ d ∈ cs, (fun d => !isSpaceChar d) d = true := by
          intro hc
          have hd0' := hc d0 hd0mem
          simp only [Bool.not_eq_true'] at hd0'
          simp [hd0'] at hd0
        have hlt : (cs.takeWhile (fun d => !isSpaceChar d)).length ≠ cs.length := by
          intro heq
          apply hne
          intro d hd
          have hself : cs.takeWhile (fun d => !isSpaceChar d) = cs :=
            (List.takeWhile_sublist _).eq_of_length heq
          rw [← hself] at hd
          exact List.mem_takeWhile_imp (p := fun d => !isSpaceChar d) hd
        have hdropne : ¬ (cs.dropWhile (fun d => !isSpaceChar d)).isEmpty = true := by
          simp only [List.isEmpty_iff]
          intro hnil
          apply hne
          intro d hd
          have hsplit := List.takeWhile_append_dropWhile
            (p := fun d => !isSpaceChar d) (l := cs)
          rw [hnil, List.append_nil] at hsplit
          rw [← hsplit] at hd
          exact List.mem_takeWhile_imp (p := fun d => !isSpaceChar d) hd
        rw [List.takeWhile_append, if_neg hlt, List.dropWhile_append, if_neg hdropne]
        congr 1
        exact fields_append_space (cs.dropWhile (fun d => !isSpaceChar d)) hw
termination_by l.length
decreasing_by
  · simp
  · have hle := (List.dropWhile_sublist (l := cs) (p := fun d => !isSpaceChar d)).length_le
    simp only [List.length_cons]
    omega


/-! ## Lemmas: trim and readNextLine -/

theorem dropWhile_eq_self_of_all_not {p : Char → Bool} {l : List Char}
    (h : ∀ c ∈ l, p c = false) : l.dropWhile p = l := by
  cases l with
  | nil => rfl
  | cons c cs => exact dropWhile_eq_self_of_head (h c (List.mem_cons_self _ _))

theorem trim_eq_self_of_no_space {l : List Char}
    (h : ∀ c ∈ l, isSpaceChar c = false) : trim l = l := by
  rw [trim, dropWhile_eq_self_of_all_not h, dropWhile_eq_self_of_all_not (by
    intro c hc
    exact h c (List.mem_reverse.mp hc)), List.reverse_reverse]

theorem trim_cons {c : Char} {l : List Char} (h : isSpaceChar c = false) :
    ∃ r, trim (c :: l) = c :: r := by
  rw [trim, dropWhile_eq_self_of_head h, List.reverse_cons, List.dropWhile_append]
  by_cases hemp : (l.reverse.dropWhile isSpaceChar).isEmpty
  · rw [if_pos hemp, dropWhile_eq_self_of_head h]
    exact ⟨[], rfl⟩
  · rw [if_neg hemp]
    exact ⟨(l.reverse.dropWhile isSpaceChar).reverse, by rw [List.reverse_append]; rfl⟩

theorem fields_trim (l : List Char) : fields (trim l) = fields l := by
  rw [trim]
  have hsplit := List.takeWhile_append_dropWhile
    (p := isSpaceChar) (l := (l.dropWhile isSpaceChar).reverse)
  have hws : ∀ c ∈ ((l.dropWhile isSpaceChar).reverse.takeWhile isSpaceChar).reverse,
      isSpaceChar c = true := by
    intro c hc
    exact List.mem_takeWhile_imp (List.mem_reverse.mp hc)
  calc fields ((l.dropWhile isSpaceChar).reverse.dropWhile isSpaceChar).reverse
      = fields (((l.dropWhile isSpaceChar).reverse.dropWhile isSpaceChar).reverse
          ++ ((l.dropWhile isSpaceChar).reverse.takeWhile isSpaceChar).reverse) :=
        (fields_append_space _ hws).symm
    _ = fields (l.dropWhile isSpaceChar) := by
        rw [← List.reverse_append, hsplit, List.reverse_reverse]
    _ = fields l := fields_dropWhile l

theorem readNextLine_cons {l : Line} {rest : List Line} (h1 : trim l ≠ [])
    (h2 : isCommentLine (trim l) = false) :
    readNextLine (l :: rest) = (trim l, rest) := by
  simp only [readNextLine]
  rw [if_pos ⟨h1, by simp [h2]⟩]

/-- Reading a produced line whose first character is neither whitespace
nor `#`. -/
theorem readNextLine_encLine {c : Char} {l : List Char} (rest : List Line)
    (hc : isSpaceChar c = false) (hh : c ≠ '#') :
    readNextLine ((c :: l) :: rest) = (trim (c :: l), rest) := by
  obtain ⟨r, hr⟩ := trim_cons (l := l) hc
  apply readNextLine_cons
  · rw [hr]
    simp
  · rw [hr]
    simp only [isCommentLine]
    simp [hh]

/-! ## Lemmas: fileRead -/

theorem fileRead_nil (buffer : List Nat) : fileRead [] buffer = none := rfl

/-- When at least a full buffer of bytes remains, `file.Read` fills the
whole buffer from the stream. -/
theorem fileRead_full {remaining buffer : List Nat}
    (h : buffer.length ≤ remaining.length) (hne : remaining ≠ []) :
    fileRead remaining buffer
      = some (remaining.take buffer.length, remaining.drop buffer.length) := by
  rw [fileRead, if_neg hne]
  have hmin : min buffer.length remaining.length = buffer.length := min_eq_left h
  simp [hmin]

/-! ## Lemmas: the ASCII pixel loops -/

theorem fillRowWith_nil {α : Type} (store : Int → α) (j : Nat) (row : List α) :
    fillRowWith store [] j row = .ok row := by
  rw [fillRowWith]

theorem fillRowWith_cons_none {α : Type} (store : Int → α) {t : Line}
    (ts : List Line) (j : Nat) (row : List α) (hp : atoi t = none) :
    fillRowWith store (t :: ts) j row = .error .atoiError := by
  rw [fillRowWith, hp]

theorem fillRowWith_cons_some {α : Type} (store : Int → α) {t : Line} {pixel : Int}
    (ts : List Line) (j : Nat) (row : List α) (hp : atoi t = some pixel) :
    fillRowWith store (t :: ts) j row
      = if j < row.length then fillRowWith store ts (j + 1) (row.set j (store pixel))
        else .panic := by
  rw [fillRowWith, hp]

theorem fillRowWith_length {α : Type} (store : Int → α) :
    ∀ (ts : List Line) (j : Nat) (row r : List α),
      fillRowWith store ts j row = .ok r → r.length = row.length := by
  intro ts
  induction ts with
  | nil =>
    intro j row r h
    rw [fillRowWith_nil] at h
    cases h
    rfl
  | cons t ts ih =>
    intro j row r h
    cases hat : atoi t with
    | none => rw [fillRowWith_cons_none _ _ _ _ hat] at h; cases h
    | some pixel =>
      rw [fillRowWith_cons_some _ _ _ _ hat] at h
      split at h
      · have hr := ih _ _ _ h
        simpa using hr
      · cases h

theorem fillRowWith_error {α : Type} (store : Int → α) :
    ∀ (ts : List Line) (j : Nat) (row : List α) (e : DecodeError),
      fillRowWith store ts j row = .error e → e = .atoiError := by
  intro ts
  induction ts with
  | nil =>
    intro j row e h
    rw [fillRowWith_nil] at h
    cases h
  | cons t ts ih =>
    intro j row e h
    cases hat : atoi t with
    | none => rw [fillRowWith_cons_none _ _ _ _ hat] at h; cases h; rfl
    | some pixel =>
      rw [fillRowWith_cons_some _ _ _ _ hat] at h
      split at h
      · exact ih _ _ _ h
      · cases h

theorem fillRowWith_ok {α : Type} (store : Int → α) :
    ∀ (ts : List Line) (j : Nat) (row : List α),
      j + ts.length ≤ row.length →
      (∀ t ∈ ts, (atoi t).isSome) →
      fillRowWith store ts j row
        = .ok (row.take j ++ ts.map (fun t => store ((atoi t).getD 0))
            ++ row.drop (j + ts.length)) := by
  intro ts
  induction ts with
  | nil =>
    intro j row _ _
    rw [fillRowWith_nil]
    simp [List.take_append_drop]
  | cons t ts ih =>
    intro j row hlen hparse
    obtain ⟨pixel, hp⟩ := Option.isSome_iff_exists.mp (hparse t (List.mem_cons_self _ _))
    have hj : j < row.length := by
      simp only [List.length_cons] at hlen
      omega
    have hlen' : j + 1 + ts.length ≤ (row.set j (store pixel)).length := by
      simp only [List.length_set, List.length_cons] at hlen ⊢
      omega
    rw [fillRowWith_cons_some _ _ _ _ hp, if_pos hj,
      ih (j + 1) _ hlen' (fun u hu => hparse u (List.mem_cons_of_mem _ hu))]
    congr 1
    have hset : row.set j (store pixel)
        = row.take j ++ store pixel :: row.drop (j + 1) :=
      List.set_eq_take_cons_drop _ hj
    have hjtake : (row.take j).length = j := by
      rw [List.length_take]
      omega
    rw [hset, List.take_append_eq_append_take, List.drop_append_eq_append_drop, hjtake]
    have h1 : (row.take j).take (j + 1) = row.take j := by
      rw [List.take_take]
      congr 1
      omega
    have h2 : j + 1 - j = 1 := by omega
    rw [h1, h2]
    have h3 : (store pixel :: row.drop (j + 1)).take 1 = [store pixel] := rfl
    rw [h3]
    have h4 : (row.take j).drop (j + 1 + ts.length) = [] := by
      rw [List.drop_eq_nil_iff]
      simp only [hjtake]
      omega
    rw [h4]
    have h5 : j + 1 + ts.length - j = 1 + ts.length := by omega
    rw [h5]
    have h6 : (store pixel :: row.drop (j + 1)).drop (1 + ts.length)
        = row.drop (j + (ts.length + 1)) := by
      have he : (1 : Nat) + ts.length = ts.length + 1 := by omega
      rw [he]
      show (row.drop (j + 1)).drop ts.length = _
      rw [List.drop_drop]
      congr 1
      omega
    rw [h6]
    simp only [List.map_cons, List.nil_append, List.cons_append, List.append_assoc,
      List.length_cons]
    rw [hp]
    rfl

theorem readRowsWith_zero {α : Type} (zero : α) (store : Int → α) (w : Nat)
    (ls : List Line) : readRowsWith zero store w 0 ls = .ok [] := by
  rw [readRowsWith]

theorem readRowsWith_succ {α : Type} (zero : α) (store : Int → α) (w fuel : Nat)
    (ls : List Line) :
    readRowsWith zero store w (fuel + 1) ls
      = (match fillRowWith store (fields (readNextLine ls).1) 0
            (List.replicate w zero) with
        | .panic => Result.panic
        | .error e => Result.error e
        | .ok row =>
          match readRowsWith zero store w fuel (readNextLine ls).2 with
          | .panic => Result.panic
          | .error e => Result.error e
          | .ok rows => Result.ok (row :: rows)) := by
  rw [readRowsWith]

theorem readRowsWith_shape {α : Type} (zero : α) (store : Int → α) (w : Nat) :
    ∀ (fuel : Nat) (ls : List Line) (rows : List (List α)),
      readRowsWith zero store w fuel ls = .ok rows →
      rows.length = fuel ∧ ∀ r ∈ rows, r.length = w := by
  intro fuel
  induction fuel with
  | zero =>
    intro ls rows h
    rw [readRowsWith_zero] at h
    cases h
    simp
  | succ fuel ih =>
    intro ls rows h
    rw [readRowsWith_succ] at h
    split at h
    · cases h
    · cases h
    · next row hfill =>
      split at h
      · cases h
      · cases h
      · next rows0 hrec =>
        cases h
        obtain ⟨hlen, hall⟩ := ih _ _ hrec
        refine ⟨by simp [hlen], ?_⟩
        intro r hr
        rcases List.mem_cons.mp hr with rfl | hmem
        · have hrl := fillRowWith_length store _ _ _ _ hfill
          simpa using hrl
        · exact hall r hmem

theorem readRowsWith_error {α : Type} (zero : α) (store : Int → α) (w : Nat) :
    ∀ (fuel : Nat) (ls : List Line) (e : DecodeError),
      readRowsWith zero store w fuel ls = .error e → e = .atoiError := by
  intro fuel
  induction fuel with
  | zero =>
    intro ls e h
    rw [readRowsWith_zero] at h
    cases h
  | succ fuel ih =>
    intro ls e h
    rw [readRowsWith_succ] at h
    split at h
    · cases h
    · next e0 hfill =>
      cases h
      exact fillRowWith_error store _ _ _ _ hfill
    · split at h
      · cases h
      · next e0 hrec =>
        cases h
        exact ih _ _ hrec
      · cases h

/-- With the line stream exhausted, every remaining ASCII row is left at
its zero-initialised value: `readNextLine` yields the empty line with a
nil error, `strings.Fields` of it is empty, and the loop stores nothing. -/
theorem readRowsWith_exhausted {α : Type} (zero : α) (store : Int → α) (w : Nat) :
    ∀ (fuel : Nat), readRowsWith zero store w fuel []
      = .ok (List.replicate fuel (List.replicate w zero)) := by
  intro fuel
  induction fuel with
  | zero => rw [readRowsWith_zero, List.replicate_zero]
  | succ fuel ih =>
    rw [readRowsWith_succ]
    have h1 : readNextLine [] = ([], []) := rfl
    rw [h1]
    show (match fillRowWith store (fields []) 0 (List.replicate w zero) with
      | .panic => Result.panic
      | .error e => Result.error e
      | .ok row =>
        match readRowsWith zero store w fuel [] with
        | .panic => Result.panic
        | .error e => Result.error e
        | .ok rows => Result.ok (row :: rows)) = _
    rw [fields_nil, fillRowWith_nil, ih]
    rfl

/-! ## Lemmas: the packed binary bodies -/

theorem readRowsP4_zeroEq {α : Type} (rowOf : List Nat → List α)
    (bytes buffer : List Nat) : readRowsP4 rowOf 0 bytes buffer = .ok [] := by
  rw [readRowsP4]

theorem readRowsP4_succEq {α : Type} (rowOf : List Nat → List α) (fuel : Nat)
    (bytes buffer : List Nat) :
    readRowsP4 rowOf (fuel + 1) bytes buffer
      = (match fileRead bytes buffer with
        | none => Result.error .eofError
        | some pr =>
          match readRowsP4 rowOf fuel pr.2 pr.1 with
          | .panic => Result.panic
          | .error e => Result.error e
          | .ok rows => Result.ok (rowOf pr.1 :: rows)) := by
  rw [readRowsP4]

/-- When the stream holds at least `fuel * bpr` bytes, the P4 loop reads
`bpr` fresh bytes per row: row `i` is built from bytes
`i*bpr, …, i*bpr + bpr - 1` of the stream. -/
theorem readRowsP4_ok {α : Type} (rowOf : List Nat → List α) (bpr : Nat)
    (hbpr : 0 < bpr) :
    ∀ (fuel : Nat) (bytes buffer : List Nat), buffer.length = bpr →
      fuel * bpr ≤ bytes.length →
      readRowsP4 rowOf fuel bytes buffer
        = .ok ((List.range fuel).map
            (fun i => rowOf ((bytes.drop (i * bpr)).take bpr))) := by
  intro fuel
  induction fuel with
  | zero =>
    intro bytes buffer _ _
    rw [readRowsP4_zeroEq]
    simp
  | succ fuel ih =>
    intro bytes buffer hbuf hlen
    have hb : bpr ≤ bytes.length := by
      have : (fuel + 1) * bpr = fuel * bpr + bpr := by ring
      omega
    have hne : bytes ≠ [] := by
      intro hnil
      rw [hnil] at hb
      simp at hb
      omega
    rw [readRowsP4_succEq, fileRead_full (by omega) hne, hbuf]
    have htlen : (bytes.take bpr).length = bpr := by
      rw [List.length_take]
      omega
    have hdlen : fuel * bpr ≤ (bytes.drop bpr).length := by
      rw [List.length_drop]
      have : (fuel + 1) * bpr = fuel * bpr + bpr := by ring
      omega
    show (match readRowsP4 rowOf fuel (bytes.drop bpr) (bytes.take bpr) with
      | .panic => Result.panic
      | .error e => Result.error e
      | .ok rows => Result.ok (rowOf (bytes.take bpr) :: rows)) = _
    rw [ih (bytes.drop bpr) (bytes.take bpr) htlen hdlen]
    show Result.ok (rowOf (bytes.take bpr) :: _) = _
    rw [List.range_succ_eq_map, List.map_cons, List.map_map]
    rw [Nat.zero_mul, List.drop_zero]
    congr 1
    congr 1
    apply List.map_congr_left
    intro i _
    show rowOf (((bytes.drop bpr).drop (i * bpr)).take bpr)
        = rowOf ((bytes.drop (Nat.succ i * bpr)).take bpr)
    rw [List.drop_drop, Nat.succ_mul, Nat.add_comm bpr (i * bpr)]

theorem readRowsP4_error {α : Type} (rowOf : List Nat → List α) :
    ∀ (fuel : Nat) (bytes buffer : List Nat) (e : DecodeError),
      readRowsP4 rowOf fuel bytes buffer = .error e → e = .eofError := by
  intro fuel
  induction fuel with
  | zero =>
    intro bytes buffer e h
    rw [readRowsP4_zeroEq] at h
    cases h
  | succ fuel ih =>
    intro bytes buffer e h
    rw [readRowsP4_succEq] at h
    split at h
    · cases h
      rfl
    · split at h
      · cases h
      · next e0 hrec =>
        cases h
        exact ih _ _ _ hrec
      · cases h

theorem readRowsP4_shape {α : Type} (rowOf : List Nat → List α) {w : Nat}
    (hrow : ∀ buf, (rowOf buf).length = w) :
    ∀ (fuel : Nat) (bytes buffer : List Nat) (rows : List (List α)),
      readRowsP4 rowOf fuel bytes buffer = .ok rows →
      rows.length = fuel ∧ ∀ r ∈ rows, r.length = w := by
  intro fuel
  induction fuel with
  | zero =>
    intro bytes buffer rows h
    rw [readRowsP4_zeroEq] at h
    cases h
    simp
  | succ fuel ih =>
    intro bytes buffer rows h
    rw [readRowsP4_succEq] at h
    split at h
    · cases h
    · split at h
      · cases h
      · cases h
      · next rows0 hrec =>
        cases h
        obtain ⟨hlen, hall⟩ := ih _ _ _ hrec
        refine ⟨by simp [hlen], ?_⟩
        intro r hr
        rcases List.mem_cons.mp hr with rfl | hmem
        · exact hrow _
        · exact hall r hmem

theorem p4RowBool_length (w : Nat) (buf : List Nat) : (p4RowBool w buf).length = w := by
  simp [p4RowBool]

theorem p4RowInt_length (w : Nat) (buf : List Nat) : (p4RowInt w buf).length = w := by
  simp [p4RowInt]

theorem p4RowBool_getD (w : Nat) (buf : List Nat) {j : Nat} (hj : j < w) :
    (p4RowBool w buf).getD j false = (p4Bit buf j == 1) := by
  rw [p4RowBool, List.getD_eq_getElem?_getD, List.getElem?_map, List.getElem?_range hj]
  rfl

/-- A byte of a contiguous slice of the stream is a byte of the stream. -/
theorem getD_drop_take {l : List Nat} {a b c : Nat} (hc : c < b) :
    ((l.drop a).take b).getD c 0 = l.getD (a + c) 0 := by
  rw [List.getD_eq_getElem?_getD, List.getD_eq_getElem?_getD, List.getElem?_take,
    if_pos hc, List.getElem?_drop]

theorem p5Data_shape (w h : Nat) (buf : List Nat) :
    (p5Data w h buf).length = h ∧ ∀ r ∈ p5Data w h buf, r.length = w := by
  constructor
  · simp [p5Data]
  · intro r hr
    rw [p5Data] at hr
    obtain ⟨i, _, rfl⟩ := List.mem_map.mp hr
    simp

theorem p5Data_getD (w h : Nat) (buf : List Nat) {i j : Nat} (hi : i < h) (hj : j < w) :
    ((p5Data w h buf).getD i []).getD j 0 = buf.getD (i * w + j) 0 := by
  have h1 : (p5Data w h buf).getD i []
      = (List.range w).map (fun j => buf.getD (i * w + j) 0) := by
    rw [p5Data, List.getD_eq_getElem?_getD, List.getElem?_map, List.getElem?_range hi]
    rfl
  rw [h1, List.getD_eq_getElem?_getD, List.getElem?_map, List.getElem?_range hj]
  rfl

/-! ## Lemmas: decoding well-formed headers -/

theorem fields_dimsLine (w h : Int) :
    fields (intChars w ++ ' ' :: intChars h) = [intChars w, intChars h] := by
  rw [fields_token _ (intChars_ne_nil w) (fun c hc => isSpaceChar_of_mem_intChars hc),
    fields_single (intChars_ne_nil h) (fun c hc => isSpaceChar_of_mem_intChars hc)]

theorem intChars_head (n : Int) :
    ∃ c l, intChars n = c :: l ∧ isSpaceChar c = false ∧ c ≠ '#' := by
  obtain ⟨c, l, hcl⟩ := List.exists_cons_of_ne_nil (intChars_ne_nil n)
  have hmem : c ∈ intChars n := by
    rw [hcl]
    exact List.mem_cons_self _ _
  refine ⟨c, l, hcl, isSpaceChar_of_mem_intChars hmem, ?_⟩
  rcases mem_intChars hmem with rfl | ⟨d, hd, rfl⟩
  · decide
  · exact digitChar_ne_hash hd

/-- Reading the dimension line written by `Save`. -/
theorem readNextLine_dimsLine (w h : Int) (rest : List Line) :
    readNextLine ((intChars w ++ ' ' :: intChars h) :: rest)
      = (trim (intChars w ++ ' ' :: intChars h), rest) := by
  obtain ⟨c, l, hcl, hcs, hch⟩ := intChars_head w
  rw [hcl, List.cons_append]
  exact readNextLine_encLine rest hcs hch

/-- Reading a line holding a single printed integer (the max-value line). -/
theorem readNextLine_intLine (n : Int) (rest : List Line) :
    readNextLine (intChars n :: rest) = (intChars n, rest) := by
  have htr : trim (intChars n) = intChars n :=
    trim_eq_self_of_no_space (fun c hc => isSpaceChar_of_mem_intChars hc)
  rw [readNextLine_cons (by rw [htr]; exact intChars_ne_nil n) ?hcomment, htr]
  case hcomment =>
    rw [htr]
    obtain ⟨c, l, hcl, _, hch⟩ := intChars_head n
    rw [hcl]
    simp only [isCommentLine]
    simp [hch]

/-- `ReadPGM` on a well-formed P2 header followed by anything. -/
theorem ReadPGM_P2 (w h mx : Int) (rest : List Line) (bytes : List Nat) :
    ReadPGM (['P', '2'] :: (intChars w ++ ' ' :: intChars h) :: intChars mx :: rest) bytes
      = if 0 < w ∧ 0 < h then
          match readRowsPGM w.toNat h.toNat rest with
          | .panic => .panic
          | .error e => .error e
          | .ok data => .ok ⟨data, w, h, ['P', '2'], mx⟩
        else .ok ⟨[], w, h, ['P', '2'], mx⟩ := by
  have hm : readNextLine (['P', '2']
      :: (intChars w ++ ' ' :: intChars h) :: intChars mx :: rest)
      = (['P', '2'], (intChars w ++ ' ' :: intChars h) :: intChars mx :: rest) := by
    rw [readNextLine_cons (by decide) (by decide)]
    rfl
  rw [ReadPGM, hm]
  simp only [readNextLine_dimsLine, readNextLine_intLine, fields_trim, fields_dimsLine,
    atoi_intChars, List.getD_cons_zero, List.getD_cons_succ, atoiOrZero_intChars]
  by_cases hwh : 0 < w ∧ 0 < h
  · rw [if_pos hwh, if_pos hwh]
    norm_num [readRowsPGM]
  · rw [if_neg hwh, if_neg hwh]
    norm_num

/-- `ReadPGM` on a well-formed P5 header followed by anything. -/
theorem ReadPGM_P5 (w h mx : Int) (rest : List Line) (bytes : List Nat) :
    ReadPGM (['P', '5'] :: (intChars w ++ ' ' :: intChars h) :: intChars mx :: rest) bytes
      = if 0 < w ∧ 0 < h then
          match fileRead bytes (List.replicate (w.toNat * h.toNat) 0) with
          | none => .error .eofError
          | some pr => .ok ⟨p5Data w.toNat h.toNat pr.1, w, h, ['P', '5'], mx⟩
        else .ok ⟨[], w, h, ['P', '5'], mx⟩ := by
  have hm : readNextLine (['P', '5']
      :: (intChars w ++ ' ' :: intChars h) :: intChars mx :: rest)
      = (['P', '5'], (intChars w ++ ' ' :: intChars h) :: intChars mx :: rest) := by
    rw [readNextLine_cons (by decide) (by decide)]
    rfl
  rw [ReadPGM, hm]
  simp only [readNextLine_dimsLine, readNextLine_intLine, fields_trim, fields_dimsLine,
    atoi_intChars, List.getD_cons_zero, List.getD_cons_succ, atoiOrZero_intChars]
  by_cases hwh : 0 < w ∧ 0 < h
  · simp [hwh]
  · simp [hwh]

/-- `ReadPBM` on a well-formed P1 header followed by anything. -/
theorem ReadPBM_P1 (w h : Int) (rest : List Line) (bytes : List Nat) :
    ReadPBM (['P', '1'] :: (intChars w ++ ' ' :: intChars h) :: rest) bytes
      = if 0 < w ∧ 0 < h then
          match readRowsPBM w.toNat h.toNat rest with
          | .panic => .panic
          | .error e => .error e
          | .ok data => .ok ⟨data, w, h, ['P', '1']⟩
        else .ok ⟨[], w, h, ['P', '1']⟩ := by
  have hm : readNextLine (['P', '1'] :: (intChars w ++ ' ' :: intChars h) :: rest)
      = (['P', '1'], (intChars w ++ ' ' :: intChars h) :: rest) := by
    rw [readNextLine_cons (by decide) (by decide)]
    rfl
  rw [ReadPBM, hm]
  simp only [readNextLine_dimsLine, fields_trim, fields_dimsLine,
    List.getD_cons_zero, List.getD_cons_succ, atoiOrZero_intChars]
  by_cases hwh : 0 < w ∧ 0 < h
  · simp [hwh]
  · simp [hwh]

/-- `ReadPBM` on a well-formed P4 header followed by anything: the body is
read from the byte stream, `bytesPerRow` bytes per row. -/
theorem ReadPBM_P4 (w h : Int) (rest : List Line) (bytes : List Nat) :
    ReadPBM (['P', '4'] :: (intChars w ++ ' ' :: intChars h) :: rest) bytes
      = if 0 < w ∧ 0 < h then
          match readRowsP4 (p4RowBool w.toNat) h.toNat bytes
              (List.replicate ((w.toNat + (8 - w.toNat % 8) % 8 + 7) / 8) 0) with
          | .panic => .panic
          | .error e => .error e
          | .ok data => .ok ⟨data, w, h, ['P', '4']⟩
        else .ok ⟨[], w, h, ['P', '4']⟩ := by
  have hm : readNextLine (['P', '4'] :: (intChars w ++ ' ' :: intChars h) :: rest)
      = (['P', '4'], (intChars w ++ ' ' :: intChars h) :: rest) := by
    rw [readNextLine_cons (by decide) (by decide)]
    rfl
  rw [ReadPBM, hm]
  simp only [readNextLine_dimsLine, fields_trim, fields_dimsLine,
    List.getD_cons_zero, List.getD_cons_succ, atoiOrZero_intChars]
  by_cases hwh : 0 < w ∧ 0 < h
  · simp [hwh]
  · simp [hwh]

/-! ## The claims -/

/-- **C10.** The ASCII body decoders are not total at the public
interface: a P2 (resp. P1) input with `width = height = 1` whose pixel
row line holds the two numeric tokens `1 2` drives the loop to write
index `j = 1` of a row of length 1 — the Go out-of-range panic — in all
three readers, instead of returning any `DecodeError`. -/
theorem claim10_ascii_oob_panic :
    ReadPGM [['P', '2'], ['1', ' ', '1'], ['2', '5', '5'], ['1', ' ', '2']] [] = .panic
    ∧ ReadPBM [['P', '1'], ['1', ' ', '1'], ['1', ' ', '2']] [] = .panic
    ∧ ReadPBMInt [['P', '1'], ['1', ' ', '1'], ['1', ' ', '2']] [] = .panic := by
  exact ⟨by decide, by decide, by decide⟩

/-- **C1.** P4 bit packing: with positive dimensions and a byte stream
holding the whole body, the source's `bytesPerRow = (width + paddingBits
+ 7) / 8` equals `⌈width/8⌉ = (width+7)/8` (in particular `width/8`
exactly, with no extra padding byte, when `width % 8 = 0`), and the pixel
at row `i`, column `j` of the decoded grid is set exactly when bit
`7 - j % 8` of byte `j / 8` of that row's slice — byte
`i * bytesPerRow + j / 8` of the stream — is set.  The hand-constructed
10×1 body `0b10110000, 0b01000000` decodes to `[1,0,1,1,0,0,0,0,0,1]`. -/
theorem claim1_p4_bit_packing (w h : Nat) (bytes : List Nat) (rest : List Line)
    (hw : 0 < w) (hh : 0 < h) (hlen : h * ((w + 7) / 8) ≤ bytes.length) :
    ((w + (8 - w % 8) % 8 + 7) / 8 = (w + 7) / 8
      ∧ (w % 8 = 0 → (w + (8 - w % 8) % 8 + 7) / 8 = w / 8))
    ∧ ReadPBM (['P', '4'] :: (intChars (w : Int) ++ ' ' :: intChars (h : Int)) :: rest)
        bytes
      = .ok ⟨(List.range h).map (fun i => (List.range w).map (fun j =>
          (((bytes.getD (i * ((w + 7) / 8) + j / 8) 0) >>> (7 - j % 8)) &&& 1) == 1)),
          (w : Int), (h : Int), ['P', '4']⟩
    ∧ ReadPBM [['P', '4'], ['1', '0', ' ', '1']] [176, 64]
      = .ok ⟨[[true, false, true, true, false, false, false, false, false, true]],
             10, 1, ['P', '4']⟩ := by
  refine ⟨⟨by omega, fun h8 => by omega⟩, ?_, by decide⟩
  rw [ReadPBM_P4, if_pos ⟨by exact_mod_cast hw, by exact_mod_cast hh⟩]
  rw [Int.toNat_natCast, Int.toNat_natCast]
  have hbpr : (w + (8 - w % 8) % 8 + 7) / 8 = (w + 7) / 8 := by omega
  rw [hbpr]
  rw [readRowsP4_ok (p4RowBool w) ((w + 7) / 8) (by omega) h bytes _
    (List.length_replicate _ _) hlen]
  show Result.ok _ = _
  congr 1
  apply congrArg (fun d => PBM.mk d _ _ _)
  apply List.map_congr_left
  intro i hi
  rw [p4RowBool]
  apply List.map_congr_left
  intro j hj
  rw [List.mem_range] at hi hj
  congr 1
  rw [p4Bit, getD_drop_take (by omega)]

/-- Witness for C1 at the claim's own concrete input. -/
theorem claim1_p4_bit_packing_witness :
    ReadPBM (['P', '4'] :: (intChars (10 : Nat) ++ ' ' :: intChars (1 : Nat)) :: [])
        [176, 64]
      = .ok ⟨(List.range 1).map (fun i => (List.range 10).map (fun j =>
          ((([176, 64].getD (i * ((10 + 7) / 8) + j / 8) 0) >>> (7 - j % 8)) &&& 1) == 1)),
          (10 : Nat), (1 : Nat), ['P', '4']⟩ :=
  (claim1_p4_bit_packing 10 1 [176, 64] [] (by decide) (by decide) (by decide)).2.1

/-- **C5.** P5 decode with positive dimensions and a stream holding at
least `width * height` bytes consumes exactly the first `width * height`
bytes (the grid only depends on them) and assigns
`data[i][j] = buffer[i*width + j]`; in particular the 2×2 body
`[10, 20, 30, 40]` decodes to rows `[[10,20],[30,40]]`. -/
theorem claim5_p5_decode (w h mx : Int) (bytes : List Nat) (rest : List Line)
    (hw : 0 < w) (hh : 0 < h) (hlen : w.toNat * h.toNat ≤ bytes.length) :
    ReadPGM (['P', '5'] :: (intChars w ++ ' ' :: intChars h) :: intChars mx :: rest)
        bytes
      = .ok ⟨(List.range h.toNat).map (fun i => (List.range w.toNat).map (fun j =>
          bytes.getD (i * w.toNat + j) 0)), w, h, ['P', '5'], mx⟩
    ∧ ReadPGM [['P', '5'], ['2', ' ', '2'], ['2', '5', '5']] [10, 20, 30, 40]
      = .ok ⟨[[10, 20], [30, 40]], 2, 2, ['P', '5'], 255⟩ := by
  refine ⟨?_, by decide⟩
  rw [ReadPGM_P5, if_pos ⟨hw, hh⟩]
  have hwn : 0 < w.toNat := by omega
  have hhn : 0 < h.toNat := by omega
  have hne : bytes ≠ [] := by
    intro hnil
    rw [hnil] at hlen
    simp only [List.length_nil, Nat.le_zero] at hlen
    have := Nat.mul_pos hwn hhn
    omega
  rw [fileRead_full (by rw [List.length_replicate]; exact hlen) hne]
  show Result.ok _ = _
  congr 1
  apply congrArg (fun d => PGM.mk d _ _ _ _)
  rw [List.length_replicate, p5Data]
  apply List.map_congr_left
  intro i hi
  apply List.map_congr_left
  intro j hj
  rw [List.mem_range] at hi hj
  have hij : i * w.toNat + j < w.toNat * h.toNat := by
    have h1 : i * w.toNat + j < (i + 1) * w.toNat := by
      rw [Nat.succ_mul]
      omega
    have h2 : (i + 1) * w.toNat ≤ h.toNat * w.toNat :=
      Nat.mul_le_mul_right _ (by omega)
    calc i * w.toNat + j < (i + 1) * w.toNat := h1
      _ ≤ h.toNat * w.toNat := h2
      _ = w.toNat * h.toNat := Nat.mul_comm _ _
  rw [List.getD_eq_getElem?_getD, List.getD_eq_getElem?_getD, List.getElem?_take,
    if_pos hij]

/-- Witness for C5 at the claim's own concrete input. -/
theorem claim5_p5_decode_witness :
    ReadPGM (['P', '5'] :: (intChars 2 ++ ' ' :: intChars 2) :: intChars 255 :: [])
        [10, 20, 30, 40]
      = .ok ⟨(List.range (2 : Int).toNat).map (fun i =>
          (List.range (2 : Int).toNat).map (fun j =>
            [10, 20, 30, 40].getD (i * (2 : Int).toNat + j) 0)),
          2, 2, ['P', '5'], 255⟩ :=
  (claim5_p5_decode 2 2 255 [10, 20, 30, 40] [] (by decide) (by decide) (by decide)).1

/-- **C7.** A header declaring `width = 0` or `height = 0` decodes to a
grid holding zero rows, for either of the codec's two magic numbers and
regardless of what follows the header: no body parsing happens, so no
body-related error can occur. -/
theorem claim7_empty_image :
    (∀ (w mx : Int) (m : Line) (rest : List Line) (bytes : List Nat),
      m = ['P', '2'] ∨ m = ['P', '5'] →
      ReadPGM (m :: (intChars w ++ ' ' :: intChars 0) :: intChars mx :: rest) bytes
          = .ok ⟨[], w, 0, m, mx⟩
        ∧ ReadPGM (m :: (intChars 0 ++ ' ' :: intChars w) :: intChars mx :: rest) bytes
          = .ok ⟨[], 0, w, m, mx⟩)
    ∧ (∀ (w : Int) (m : Line) (rest : List Line) (bytes : List Nat),
      m = ['P', '1'] ∨ m = ['P', '4'] →
      ReadPBM (m :: (intChars w ++ ' ' :: intChars 0) :: rest) bytes
          = .ok ⟨[], w, 0, m⟩
        ∧ ReadPBM (m :: (intChars 0 ++ ' ' :: intChars w) :: rest) bytes
          = .ok ⟨[], 0, w, m⟩) := by
  constructor
  · rintro w mx m rest bytes (rfl | rfl)
    · exact ⟨by rw [ReadPGM_P2, if_neg (by omega)],
        by rw [ReadPGM_P2, if_neg (by omega)]⟩
    · exact ⟨by rw [ReadPGM_P5, if_neg (by omega)],
        by rw [ReadPGM_P5, if_neg (by omega)]⟩
  · rintro w m rest bytes (rfl | rfl)
    · exact ⟨by rw [ReadPBM_P1, if_neg (by omega)],
        by rw [ReadPBM_P1, if_neg (by omega)]⟩
    · exact ⟨by rw [ReadPBM_P4, if_neg (by omega)],
        by rw [ReadPBM_P4, if_neg (by omega)]⟩

/-- Witness for C7: a P2 header `5 0` followed by garbage decodes to the
empty grid. -/
theorem claim7_empty_image_witness :
    ReadPGM (['P', '2'] :: (intChars 5 ++ ' ' :: intChars 0) :: intChars 255
        :: [['#', '!'], ['x']]) [1, 2, 3]
      = .ok ⟨[], 5, 0, ['P', '2'], 255⟩ :=
  (claim7_empty_image.1 5 255 ['P', '2'] [['#', '!'], ['x']] [1, 2, 3] (Or.inl rfl)).1

/-- **C2, counterexample.**  A P2 file declaring 2×2 whose body holds a
single row `1 1` decodes *successfully* to the partially filled grid
`[[1,1],[0,0]]`: at end of input the scanner's `Err()` is nil, so the row
loop sees empty lines and leaves the remaining rows zero-filled — there
is no `TruncatedImageBody` failure. -/
theorem claim2_truncation_counterexample :
    ReadPGM [['P', '2'], ['2', ' ', '2'], ['2', '5', '5'], ['1', ' ', '1']] []
      = .ok ⟨[[1, 1], [0, 0]], 2, 2, ['P', '2'], 255⟩ := by
  decide

/-- **C2, amended.**  Truncation behaviour of the code: an ASCII (P1/P2)
body with fewer than `height` rows — here none at all — decodes
successfully with every missing row zero-filled; a P4/P5 decode returns
the stream's end-of-file error (there is no dedicated
`TruncatedImageBody` value) only when the byte stream is empty at a
read, and a partial final read succeeds, leaving unsupplied pixels
zero-filled (P5) or read from the stale row buffer (P4). -/
theorem claim2_truncation_amended (w h mx : Int) (hw : 0 < w) (hh : 0 < h) :
    ReadPGM [['P', '2'], intChars w ++ ' ' :: intChars h, intChars mx] []
      = .ok ⟨List.replicate h.toNat (List.replicate w.toNat 0), w, h, ['P', '2'], mx⟩
    ∧ ReadPBM [['P', '1'], intChars w ++ ' ' :: intChars h] []
      = .ok ⟨List.replicate h.toNat (List.replicate w.toNat false), w, h, ['P', '1']⟩
    ∧ ReadPGM [['P', '5'], intChars w ++ ' ' :: intChars h, intChars mx] []
      = .error .eofError
    ∧ ReadPBM [['P', '4'], intChars w ++ ' ' :: intChars h] []
      = .error .eofError
    ∧ ReadPGM [['P', '5'], ['2', ' ', '2'], ['2', '5', '5']] [10]
      = .ok ⟨[[10, 0], [0, 0]], 2, 2, ['P', '5'], 255⟩ := by
  refine ⟨?_, ?_, ?_, ?_, by decide⟩
  · rw [show ([['P', '2'], intChars w ++ ' ' :: intChars h, intChars mx] : List Line)
        = ['P', '2'] :: (intChars w ++ ' ' :: intChars h) :: intChars mx :: [] from rfl,
      ReadPGM_P2, if_pos ⟨hw, hh⟩, readRowsPGM,
      readRowsWith_exhausted 0 (fun pixel => (pixel % 256).toNat) w.toNat h.toNat]
  · rw [show ([['P', '1'], intChars w ++ ' ' :: intChars h] : List Line)
        = ['P', '1'] :: (intChars w ++ ' ' :: intChars h) :: [] from rfl,
      ReadPBM_P1, if_pos ⟨hw, hh⟩, readRowsPBM,
      readRowsWith_exhausted false (fun pixel => pixel == 1) w.toNat h.toNat]
  · rw [show ([['P', '5'], intChars w ++ ' ' :: intChars h, intChars mx] : List Line)
        = ['P', '5'] :: (intChars w ++ ' ' :: intChars h) :: intChars mx :: [] from rfl,
      ReadPGM_P5, if_pos ⟨hw, hh⟩, fileRead_nil]
  · rw [show ([['P', '4'], intChars w ++ ' ' :: intChars h] : List Line)
        = ['P', '4'] :: (intChars w ++ ' ' :: intChars h) :: [] from rfl,
      ReadPBM_P4, if_pos ⟨hw, hh⟩]
    obtain ⟨k, hk⟩ : ∃ k, h.toNat = k + 1 := ⟨h.toNat - 1, by omega⟩
    rw [hk, readRowsP4_succEq, fileRead_nil]

/-- Witness for the amended C2 at `w = h = 2`, `mx = 255`. -/
theorem claim2_truncation_amended_witness :
    ReadPGM [['P', '2'], intChars 2 ++ ' ' :: intChars 2, intChars 255] []
      = .ok ⟨List.replicate (2 : Int).toNat (List.replicate (2 : Int).toNat 0),
             2, 2, ['P', '2'], 255⟩ :=
  (claim2_truncation_amended 2 2 255 (by decide) (by decide)).1

/-- **C3, counterexample.**  A dimension line with exactly two tokens is
*never* rejected: `strconv.Atoi` errors are discarded (`width, _ :=`),
so the non-numeric line `abc def` yields `width = height = 0` and decode
*succeeds* with an empty grid, and the negative line `-1 5` also
succeeds, with `width = -1` stored; the claim requires the
`InvalidDimensions` error in both cases. -/
theorem claim3_dims_counterexample :
    ReadPGM [['P', '2'], ['a', 'b', 'c', ' ', 'd', 'e', 'f'], ['2', '5', '5']] []
      = .ok ⟨[], 0, 0, ['P', '2'], 255⟩
    ∧ ReadPGM [['P', '2'], ['-', '1', ' ', '5'], ['2', '5', '5']] []
      = .ok ⟨[], -1, 5, ['P', '2'], 255⟩ := by
  exact ⟨by decide, by decide⟩

/-- **C3, amended.**  Decode fails with `InvalidDimensions` exactly when
the dimension line does not split into two whitespace-separated tokens;
the content of the two tokens is never checked (parse failures are
discarded as the zero value, negative values are accepted). -/
theorem claim3_dims_amended :
    (∀ (m dl : Line) (rest : List Line) (bytes : List Nat),
      m = ['P', '2'] ∨ m = ['P', '5'] → trim dl ≠ [] →
      isCommentLine (trim dl) = false →
      ((fields (trim dl)).length ≠ 2 →
        ReadPGM (m :: dl :: rest) bytes = .error .invalidImageDimensions)
      ∧ ((fields (trim dl)).length = 2 →
        ReadPGM (m :: dl :: rest) bytes ≠ .error .invalidImageDimensions))
    ∧ (∀ (m dl : Line) (rest : List Line) (bytes : List Nat),
      m = ['P', '1'] ∨ m = ['P', '4'] → trim dl ≠ [] →
      isCommentLine (trim dl) = false →
      ((fields (trim dl)).length ≠ 2 →
        ReadPBM (m :: dl :: rest) bytes = .error .invalidImageDimensions)
      ∧ ((fields (trim dl)).length = 2 →
        ReadPBM (m :: dl :: rest) bytes ≠ .error .invalidImageDimensions)) := by
  constructor
  · rintro m dl rest bytes (rfl | rfl) h1 h2
    · have hm : readNextLine (['P', '2'] :: dl :: rest) = (['P', '2'], dl :: rest) := by
        rw [readNextLine_cons (by decide) (by decide)]
        rfl
      constructor
      · intro hf
        rw [ReadPGM, hm]
        simp only [readNextLine_cons h1 h2]
        rw [if_neg (by simp), if_pos hf]
      · intro hf heq
        rw [ReadPGM, hm] at heq
        simp only [readNextLine_cons h1 h2] at heq
        rw [if_neg (by simp), if_neg (by simp [hf])] at heq
        repeat' split at heq
        all_goals try cases heq
        all_goals
          rename_i herr
          try unfold readRowsPGM at herr
          exact absurd (readRowsWith_error _ _ _ _ _ _ herr) (by decide)
    · have hm : readNextLine (['P', '5'] :: dl :: rest) = (['P', '5'], dl :: rest) := by
        rw [readNextLine_cons (by decide) (by decide)]
        rfl
      constructor
      · intro hf
        rw [ReadPGM, hm]
        simp only [readNextLine_cons h1 h2]
        rw [if_neg (by simp), if_pos hf]
      · intro hf heq
        rw [ReadPGM, hm] at heq
        simp only [readNextLine_cons h1 h2] at heq
        rw [if_neg (by simp), if_neg (by simp [hf])] at heq
        repeat' split at heq
        all_goals try cases heq
        all_goals exact absurd ‹['P', '5'] = ['P', '2']› (by decide)
  · rintro m dl rest bytes (rfl | rfl) h1 h2
    · have hm : readNextLine (['P', '1'] :: dl :: rest) = (['P', '1'], dl :: rest) := by
        rw [readNextLine_cons (by decide) (by decide)]
        rfl
      constructor
      · intro hf
        rw [ReadPBM, hm]
        simp only [readNextLine_cons h1 h2]
        rw [if_neg (by simp), if_pos hf]
      · intro hf heq
        rw [ReadPBM, hm] at heq
        simp only [readNextLine_cons h1 h2] at heq
        rw [if_neg (by simp), if_neg (by simp [hf])] at heq
        repeat' split at heq
        all_goals try cases heq
        all_goals
          rename_i herr
          first
          | (exact absurd (readRowsP4_error _ _ _ _ _ herr) (by decide))
          | (unfold readRowsPBM at herr
             exact absurd (readRowsWith_error _ _ _ _ _ _ herr) (by decide))
    · have hm : readNextLine (['P', '4'] :: dl :: rest) = (['P', '4'], dl :: rest) := by
        rw [readNextLine_cons (by decide) (by decide)]
        rfl
      constructor
      · intro hf
        rw [ReadPBM, hm]
        simp only [readNextLine_cons h1 h2]
        rw [if_neg (by simp), if_pos hf]
      · intro hf heq
        rw [ReadPBM, hm] at heq
        simp only [readNextLine_cons h1 h2] at heq
        rw [if_neg (by simp), if_neg (by simp [hf])] at heq
        repeat' split at heq
        all_goals try cases heq
        all_goals
          rename_i herr
          first
          | (exact absurd (readRowsP4_error _ _ _ _ _ herr) (by decide))
          | (unfold readRowsPBM at herr
             exact absurd (readRowsWith_error _ _ _ _ _ _ herr) (by decide))

/-- Witness for the amended C3: the one-token dimension line `7` is
rejected with `InvalidDimensions`, and the two-token line `xy z` is not
(per `claim3_dims_counterexample` the decode proceeds normally). -/
theorem claim3_dims_amended_witness :
    ReadPGM [['P', '2'], ['7'], ['2', '5', '5']] [] = .error .invalidImageDimensions
    ∧ ReadPGM [['P', '2'], ['x', 'y', ' ', 'z'], ['2', '5', '5']] []
        ≠ .error .invalidImageDimensions :=
  ⟨((claim3_dims_amended.1 ['P', '2'] ['7'] [['2', '5', '5']] [] (Or.inl rfl)
      (by decide) (by decide)).1 (by decide)),
   ((claim3_dims_amended.1 ['P', '2'] ['x', 'y', ' ', 'z'] [['2', '5', '5']] []
      (Or.inl rfl) (by decide) (by decide)).2 (by decide))⟩

/-! ## Lemmas: mapBelow (the bounded for-loops of the transforms) -/

theorem mapBelow_zero {α : Type} (f : α → α) (l : List α) : mapBelow f 0 l = l := by
  cases l <;> rfl

theorem mapBelow_getD {α : Type} (f : α → α) :
    ∀ (n : Nat) (l : List α) (i : Nat) (d : α), i < n → i < l.length →
      (mapBelow f n l).getD i d = f (l.getD i d) := by
  intro n
  induction n with
  | zero => intro l i d hi _; omega
  | succ n ih =>
    intro l i d hi hil
    cases l with
    | nil => simp at hil
    | cons a t =>
      cases i with
      | zero => rfl
      | succ i =>
        show (mapBelow f n t).getD i d = f (t.getD i d)
        exact ih t i d (by omega) (by simpa using hil)

theorem mapBelow_length {α : Type} (f : α → α) :
    ∀ (n : Nat) (l : List α), (mapBelow f n l).length = l.length := by
  intro n
  induction n with
  | zero => intro l; rw [mapBelow_zero]
  | succ n ih =>
    intro l
    cases l with
    | nil => rfl
    | cons a t =>
      show (f a :: mapBelow f n t).length = (a :: t).length
      simp [ih t]

theorem mapBelow_mapBelow_of_comp {α : Type} (f : α → α) :
    ∀ (n : Nat) (l : List α), (∀ a ∈ l, f (f a) = a) →
      mapBelow f n (mapBelow f n l) = l := by
  intro n
  induction n with
  | zero => intro l _; rw [mapBelow_zero, mapBelow_zero]
  | succ n ih =>
    intro l h
    cases l with
    | nil => rfl
    | cons a t =>
      show f (f a) :: mapBelow f n (mapBelow f n t) = a :: t
      rw [h a (List.mem_cons_self _ _), ih t (fun b hb => h b (List.mem_cons_of_mem _ hb))]

theorem invertPixel_invertPixel {max : Int} {p : Nat} (hp : p < 256) :
    invertPixel max (invertPixel max p) = p := by
  rw [invertPixel, invertPixel]
  omega

/-- **C6, counterexample.**  Greyscale `Invert` computes
`uint8(max) - pixel` in 8-bit wrap-around arithmetic, not the integer
`max_value - pixel`: with `max = 10` and pixel `200`, the stored result
is `(10 - 200) mod 256 = 66`, while `max_value - pixel = -190` — so
"replaces every pixel p by max_value - p" is false as an integer
statement. -/
theorem claim6_invert_counterexample :
    ((PGM.Invert ⟨[[200]], 1, 1, ['P', '2'], 10⟩).data.getD 0 []).getD 0 0 = 66
    ∧ ((66 : Int) ≠ (10 : Int) - 200) := by
  exact ⟨by decide, by decide⟩

/-- **C6, amended.**  Greyscale `Invert` replaces the pixel `p` at every
position `i < height`, `j < width` by `(max % 256 - p) % 256` — the
`uint8(max) - p` of the source, 8-bit wrap-around arithmetic using the
grid's current `max` — and applying `Invert` twice with `max` unchanged
between the calls restores the grid exactly (pixels, dimensions, magic
number and max value), since every stored pixel is a `uint8`
(`p < 256`). -/
theorem claim6_invert_amended :
    (∀ (g : PGM) (i j : Nat), i < g.height.toNat → i < g.data.length →
      j < g.width.toNat → j < (g.data.getD i []).length →
      ((PGM.Invert g).data.getD i []).getD j 0
        = ((g.max % 256 - (((g.data.getD i []).getD j 0 : Nat) : Int)) % 256).toNat)
    ∧ (∀ g : PGM, (∀ r ∈ g.data, ∀ p ∈ r, p < 256) →
      PGM.Invert (PGM.Invert g) = g) := by
  constructor
  · intro g i j hih hil hjw hjl
    rw [PGM.Invert]
    show ((mapBelow _ g.height.toNat g.data).getD i []).getD j 0 = _
    rw [mapBelow_getD _ _ _ _ _ hih hil, mapBelow_getD _ _ _ _ _ hjw hjl]
    rfl
  · intro g hg
    have hmax : (PGM.Invert g).max = g.max := rfl
    have hw : (PGM.Invert g).width = g.width := rfl
    have hh : (PGM.Invert g).height = g.height := rfl
    obtain ⟨data, w, h, m, mx⟩ := g
    rw [PGM.Invert, PGM.Invert]
    simp only
    congr 1
    apply mapBelow_mapBelow_of_comp
    intro row hrow
    apply mapBelow_mapBelow_of_comp
    intro p hp
    exact invertPixel_invertPixel (hg row hrow p hp)

/-- Witness for the amended C6 at a one-pixel grid with `max = 10` and
pixel `200`. -/
theorem claim6_invert_amended_witness :
    ((PGM.Invert ⟨[[200]], 1, 1, ['P', '2'], 10⟩).data.getD 0 []).getD 0 0
      = (((10 : Int) % 256 - ((200 : Nat) : Int)) % 256).toNat
    ∧ PGM.Invert (PGM.Invert ⟨[[200]], 1, 1, ['P', '2'], 10⟩)
      = ⟨[[200]], 1, 1, ['P', '2'], 10⟩ :=
  ⟨claim6_invert_amended.1 ⟨[[200]], 1, 1, ['P', '2'], 10⟩ 0 0 (by decide) (by decide)
      (by decide) (by decide),
   claim6_invert_amended.2 ⟨[[200]], 1, 1, ['P', '2'], 10⟩ (by decide)⟩

/-- **C8.** Short ASCII rows: when a row line supplies `k ≤ width` tokens
that all parse, the row-filling loop succeeds and the elements beyond the
supplied tokens keep the zero value of the pre-allocated row (`0` for
greyscale, `false` for bitmap); a full P2 (resp. P1) decode of a 3×1 image
whose only row line is the single token `7` (resp. `1`) succeeds with the
row zero-filled past the first element. -/
theorem claim8_short_rows :
    (∀ (ts : List Line) (w : Nat), ts.length ≤ w → (∀ t ∈ ts, (atoi t).isSome) →
      fillRowPGM ts 0 (List.replicate w 0)
          = .ok (ts.map (fun t => (((atoi t).getD 0) % 256).toNat)
              ++ List.replicate (w - ts.length) 0)
        ∧ fillRowPBM ts 0 (List.replicate w false)
          = .ok (ts.map (fun t => (atoi t).getD 0 == 1)
              ++ List.replicate (w - ts.length) false))
    ∧ ReadPGM [['P', '2'], ['3', ' ', '1'], ['2', '5', '5'], ['7']] []
        = .ok ⟨[[7, 0, 0]], 3, 1, ['P', '2'], 255⟩
    ∧ ReadPBM [['P', '1'], ['3', ' ', '1'], ['1']] []
        = .ok ⟨[[true, false, false]], 3, 1, ['P', '1']⟩ := by
  refine ⟨?_, by decide, by decide⟩
  intro ts w hlen hparse
  constructor
  · rw [fillRowPGM, fillRowWith_ok _ ts 0 _ (by simpa using hlen) hparse]
    rw [List.take_zero, List.drop_replicate]
    simp
  · rw [fillRowPBM, fillRowWith_ok _ ts 0 _ (by simpa using hlen) hparse]
    rw [List.take_zero, List.drop_replicate]
    simp

/-- Witness for C8's row-level statement at the single token `7` with
width 3. -/
theorem claim8_short_rows_witness :
    fillRowPGM [['7']] 0 (List.replicate 3 0)
        = .ok ([['7']].map (fun t => (((atoi t).getD 0) % 256).toNat)
            ++ List.replicate (3 - [['7']].length) 0)
      ∧ fillRowPBM [['7']] 0 (List.replicate 3 false)
        = .ok ([['7']].map (fun t => (atoi t).getD 0 == 1)
            ++ List.replicate (3 - [['7']].length) false) :=
  claim8_short_rows.1 [['7']] 3 (by decide) (by decide)

/-! ## Rectangularity -/

/-- The shape every decode actually establishes: when both dimensions are
positive, exactly `height` rows of exactly `width` elements; otherwise no
rows at all (even when `height > 0 ≥ width`). -/
def RectPGM (g : PGM) : Prop :=
  if 0 < g.width ∧ 0 < g.height
  then g.data.length = g.height.toNat ∧ ∀ r ∈ g.data, r.length = g.width.toNat
  else g.data = []

/-- `RectPGM` for the boolean bitmap grid. -/
def RectPBM (b : PBM) : Prop :=
  if 0 < b.width ∧ 0 < b.height
  then b.data.length = b.height.toNat ∧ ∀ r ∈ b.data, r.length = b.width.toNat
  else b.data = []

instance (g : PGM) : Decidable (RectPGM g) := by
  rw [RectPGM]
  infer_instance

instance (b : PBM) : Decidable (RectPBM b) := by
  rw [RectPBM]
  infer_instance

/-- Every successful `ReadPGM` yields a grid of the shape `RectPGM`. -/
theorem ReadPGM_ok_rect {lines : List Line} {bytes : List Nat} {g : PGM}
    (h : ReadPGM lines bytes = .ok g) : RectPGM g := by
  simp only [ReadPGM] at h
  split at h
  · cases h
  · next hmagic =>
    split at h
    · cases h
    · split at h
      · cases h
      · split at h
        · next hwh =>
          split at h
          · split at h
            · cases h
            · cases h
            · next data hrows =>
              cases h
              unfold readRowsPGM at hrows
              obtain ⟨hlen, hall⟩ := readRowsWith_shape _ _ _ _ _ _ hrows
              rw [RectPGM]
              simp only
              rw [if_pos hwh]
              exact ⟨hlen, hall⟩
          · split at h
            · split at h
              · cases h
              · cases h
                rw [RectPGM]
                simp only
                rw [if_pos hwh]
                exact p5Data_shape _ _ _
            · next hnP2 hnP5 =>
              exfalso
              push_neg at hmagic
              exact hnP5 (hmagic hnP2)
        · next hnwh =>
          cases h
          rw [RectPGM]
          simp only
          rw [if_neg hnwh]
          trivial

/-- Every successful `ReadPBM` yields a grid of the shape `RectPBM`. -/
theorem ReadPBM_ok_rect {lines : List Line} {bytes : List Nat} {b : PBM}
    (h : ReadPBM lines bytes = .ok b) : RectPBM b := by
  simp only [ReadPBM] at h
  split at h
  · cases h
  · next hmagic =>
    split at h
    · cases h
    · split at h
      · next hwh =>
        split at h
        · split at h
          · cases h
          · cases h
          · next data hrows =>
            cases h
            unfold readRowsPBM at hrows
            obtain ⟨hlen, hall⟩ := readRowsWith_shape _ _ _ _ _ _ hrows
            rw [RectPBM]
            simp only
            rw [if_pos hwh]
            exact ⟨hlen, hall⟩
        · split at h
          · split at h
            · cases h
            · cases h
            · next data hrows =>
              cases h
              obtain ⟨hlen, hall⟩ :=
                readRowsP4_shape _ (p4RowBool_length _) _ _ _ _ hrows
              rw [RectPBM]
              simp only
              rw [if_pos hwh]
              exact ⟨hlen, hall⟩
          · next hnP1 hnP4 =>
            exfalso
            push_neg at hmagic
            exact hnP4 (hmagic hnP1)
      · next hnwh =>
        cases h
        rw [RectPBM]
        simp only
        rw [if_neg hnwh]
        trivial

/-! ## Lemmas: the transforms preserve grid shape -/

theorem getD_mem {α : Type} {l : List α} {i : Nat} (d : α) (hi : i < l.length) :
    l.getD i d ∈ l := by
  rw [List.getD_eq_getElem?_getD, List.getElem?_eq_getElem hi]
  exact List.getElem_mem hi

theorem mapBelow_nil {α : Type} (f : α → α) (n : Nat) : mapBelow f n [] = [] := by
  cases n <;> rfl

theorem mapBelow_forall {α : Type} (P : α → Prop) (f : α → α)
    (hf : ∀ a, P a → P (f a)) :
    ∀ (n : Nat) (l : List α), (∀ a ∈ l, P a) → ∀ a ∈ mapBelow f n l, P a := by
  intro n
  induction n with
  | zero =>
    intro l hl a ha
    rw [mapBelow_zero] at ha
    exact hl a ha
  | succ n ih =>
    intro l hl a ha
    cases l with
    | nil => simp [mapBelow_nil] at ha
    | cons b t =>
      rcases List.mem_cons.mp ha with rfl | hmem
      · exact hf b (hl b (List.mem_cons_self _ _))
      · exact ih t (fun x hx => hl x (List.mem_cons_of_mem _ hx)) a hmem

theorem swapAt_length {α : Type} (l : List α) (a b : Nat) (d : α) :
    (swapAt l a b d).length = l.length := by
  simp [swapAt]

theorem flipRowAux_length {α : Type} (w : Nat) (d : α) :
    ∀ (fuel j : Nat) (row : List α), (flipRowAux w d j fuel row).length = row.length := by
  intro fuel
  induction fuel with
  | zero => intro j row; rfl
  | succ fuel ih =>
    intro j row
    show (flipRowAux w d (j + 1) fuel (swapAt row j (w - j - 1) d)).length = _
    rw [ih, swapAt_length]

theorem flipRow_length {α : Type} (w : Nat) (d : α) (row : List α) :
    (flipRow w d row).length = row.length :=
  flipRowAux_length w d (w / 2) 0 row

theorem copyBelow_zero {α : Type} (dst src : List α) : copyBelow 0 dst src = dst := by
  cases dst <;> cases src <;> rfl

theorem copyBelow_length {α : Type} :
    ∀ (w : Nat) (dst src : List α), (copyBelow w dst src).length = dst.length := by
  intro w
  induction w with
  | zero => intro dst src; rw [copyBelow_zero]
  | succ w ih =>
    intro dst src
    cases dst with
    | nil => rfl
    | cons d ds =>
      cases src with
      | nil => rfl
      | cons s ss =>
        show (s :: copyBelow w ds ss).length = _
        simp [ih]

theorem flopAux_nil {α : Type} (w h : Nat) :
    ∀ (fuel i : Nat), flopAux w h i fuel ([] : List (List α)) = [] := by
  intro fuel
  induction fuel with
  | zero => intro i; rfl
  | succ fuel ih =>
    intro i
    show flopAux w h (i + 1) fuel _ = []
    have hc : copyBelow w ([] : List α) [] = [] := by cases w <;> rfl
    simp only [List.getD_nil, List.set_nil, hc]
    exact ih (i + 1)

theorem flopAux_shape {α : Type} (w h : Nat) :
    ∀ (fuel i : Nat) (data : List (List α)), data.length = h →
      (∀ r ∈ data, r.length = w) → i + fuel ≤ h →
      (flopAux w h i fuel data).length = h
        ∧ ∀ r ∈ flopAux w h i fuel data, r.length = w := by
  intro fuel
  induction fuel with
  | zero =>
    intro i data hlen hall _
    exact ⟨hlen, hall⟩
  | succ fuel ih =>
    intro i data hlen hall hbound
    have hi : i < data.length := by omega
    have hi' : h - i - 1 < data.length := by omega
    have hr1 : (data.getD i []).length = w := hall _ (getD_mem [] hi)
    have hr2 : (data.getD (h - i - 1) []).length = w := hall _ (getD_mem [] hi')
    show (flopAux w h (i + 1) fuel _).length = h ∧ _
    set data' := (data.set i (copyBelow w (data.getD i []) (data.getD (h - i - 1) [])))
      |>.set (h - i - 1) (copyBelow w (data.getD (h - i - 1) []) (data.getD i []))
      with hdata'
    have hlen' : data'.length = h := by
      rw [hdata']
      simp [hlen]
    have hall' : ∀ r ∈ data', r.length = w := by
      intro r hr
      rw [hdata'] at hr
      rcases List.mem_or_eq_of_mem_set hr with hr' | rfl
      · rcases List.mem_or_eq_of_mem_set hr' with hr'' | rfl
        · exact hall r hr''
        · rw [copyBelow_length, hr1]
      · rw [copyBelow_length, hr2]
    exact ih (i + 1) data' hlen' hall' (by omega)

theorem RectPGM_invert {g : PGM} (hg : RectPGM g) : RectPGM (PGM.Invert g) := by
  obtain ⟨data, w, h, m, mx⟩ := g
  rw [RectPGM] at hg
  rw [RectPGM]
  simp only [PGM.Invert] at hg ⊢
  by_cases hc : 0 < w ∧ 0 < h
  · rw [if_pos hc] at hg ⊢
    obtain ⟨hlen, hall⟩ := hg
    refine ⟨by rw [mapBelow_length, hlen], ?_⟩
    exact mapBelow_forall (fun r : List Nat => r.length = w.toNat)
      (mapBelow (invertPixel mx) w.toNat)
      (fun a ha => by simp only [mapBelow_length]; exact ha) _ _ hall
  · rw [if_neg hc] at hg ⊢
    rw [hg, mapBelow_nil]

theorem RectPGM_flip {g : PGM} (hg : RectPGM g) : RectPGM (PGM.Flip g) := by
  obtain ⟨data, w, h, m, mx⟩ := g
  rw [RectPGM] at hg
  rw [RectPGM]
  simp only [PGM.Flip] at hg ⊢
  by_cases hc : 0 < w ∧ 0 < h
  · rw [if_pos hc] at hg ⊢
    obtain ⟨hlen, hall⟩ := hg
    refine ⟨by rw [mapBelow_length, hlen], ?_⟩
    exact mapBelow_forall (fun r : List Nat => r.length = w.toNat)
      (flipRow w.toNat 0)
      (fun a ha => by simp only [flipRow_length]; exact ha) _ _ hall
  · rw [if_neg hc] at hg ⊢
    rw [hg, mapBelow_nil]

theorem RectPGM_flop {g : PGM} (hg : RectPGM g) : RectPGM (PGM.Flop g) := by
  obtain ⟨data, w, h, m, mx⟩ := g
  rw [RectPGM] at hg
  rw [RectPGM]
  simp only [PGM.Flop] at hg ⊢
  by_cases hc : 0 < w ∧ 0 < h
  · rw [if_pos hc] at hg ⊢
    obtain ⟨hlen, hall⟩ := hg
    exact flopAux_shape w.toNat h.toNat (h.toNat / 2) 0 data hlen hall (by omega)
  · rw [if_neg hc] at hg ⊢
    rw [hg, flopAux_nil]

theorem RectPGM_setMagicNumber {g : PGM} (hg : RectPGM g) (m : List Char) :
    RectPGM (PGM.SetMagicNumber g m) := by
  obtain ⟨data, w, h, m0, mx⟩ := g
  rw [RectPGM] at hg
  rw [RectPGM]
  exact hg

theorem RectPGM_setMaxValue {g : PGM} (hg : RectPGM g) (v : Nat) :
    RectPGM (PGM.SetMaxValue g v) := by
  obtain ⟨data, w, h, m0, mx⟩ := g
  rw [RectPGM] at hg
  rw [RectPGM]
  exact hg

theorem RectPGM_set {g g' : PGM} {x y : Int} {v : Nat}
    (hset : PGM.Set g x y v = some g') (hg : RectPGM g) : RectPGM g' := by
  simp only [PGM.Set] at hset
  split at hset
  · next hy =>
    split at hset
    · next hx =>
      cases hset
      obtain ⟨data, w, h, m, mx⟩ := g
      rw [RectPGM] at hg
      rw [RectPGM]
      simp only at hg hy ⊢
      by_cases hc : 0 < w ∧ 0 < h
      · rw [if_pos hc] at hg ⊢
        obtain ⟨hlen, hall⟩ := hg
        refine ⟨by simp [hlen], ?_⟩
        intro r hr
        rcases List.mem_or_eq_of_mem_set hr with hr' | rfl
        · exact hall r hr'
        · rw [List.length_set]
          exact hall _ (getD_mem [] hy.2)
      · rw [if_neg hc] at hg ⊢
        rw [hg] at hy
        simp at hy
    · cases hset
  · cases hset

theorem RectPBM_invert {b : PBM} (hb : RectPBM b) : RectPBM (PBM.Invert b) := by
  obtain ⟨data, w, h, m⟩ := b
  rw [RectPBM] at hb
  rw [RectPBM]
  simp only [PBM.Invert] at hb ⊢
  by_cases hc : 0 < w ∧ 0 < h
  · rw [if_pos hc] at hb ⊢
    obtain ⟨hlen, hall⟩ := hb
    refine ⟨by rw [mapBelow_length, hlen], ?_⟩
    exact mapBelow_forall (fun r : List Bool => r.length = w.toNat)
      (mapBelow not w.toNat)
      (fun a ha => by simp only [mapBelow_length]; exact ha) _ _ hall
  · rw [if_neg hc] at hb ⊢
    rw [hb, mapBelow_nil]

theorem RectPBM_flip {b : PBM} (hb : RectPBM b) : RectPBM (PBM.Flip b) := by
  obtain ⟨data, w, h, m⟩ := b
  rw [RectPBM] at hb
  rw [RectPBM]
  simp only [PBM.Flip] at hb ⊢
  by_cases hc : 0 < w ∧ 0 < h
  · rw [if_pos hc] at hb ⊢
    obtain ⟨hlen, hall⟩ := hb
    refine ⟨by rw [mapBelow_length, hlen], ?_⟩
    exact mapBelow_forall (fun r : List Bool => r.length = w.toNat)
      (flipRow w.toNat false)
      (fun a ha => by simp only [flipRow_length]; exact ha) _ _ hall
  · rw [if_neg hc] at hb ⊢
    rw [hb, mapBelow_nil]

theorem RectPBM_flop {b : PBM} (hb : RectPBM b) : RectPBM (PBM.Flop b) := by
  obtain ⟨data, w, h, m⟩ := b
  rw [RectPBM] at hb
  rw [RectPBM]
  simp only [PBM.Flop] at hb ⊢
  by_cases hc : 0 < w ∧ 0 < h
  · rw [if_pos hc] at hb ⊢
    obtain ⟨hlen, hall⟩ := hb
    exact flopAux_shape w.toNat h.toNat (h.toNat / 2) 0 data hlen hall (by omega)
  · rw [if_neg hc] at hb ⊢
    rw [hb, flopAux_nil]

theorem RectPBM_setMagicNumber {b : PBM} (hb : RectPBM b) (m : List Char) :
    RectPBM (PBM.SetMagicNumber b m) := by
  obtain ⟨data, w, h, m0⟩ := b
  rw [RectPBM] at hb
  rw [RectPBM]
  exact hb

theorem RectPBM_set {b b' : PBM} {x y : Int} {v : Bool}
    (hset : PBM.Set b x y v = some b') (hb : RectPBM b) : RectPBM b' := by
  simp only [PBM.Set] at hset
  split at hset
  · next hy =>
    split at hset
    · next hx =>
      cases hset
      obtain ⟨data, w, h, m⟩ := b
      rw [RectPBM] at hb
      rw [RectPBM]
      simp only at hb hy ⊢
      by_cases hc : 0 < w ∧ 0 < h
      · rw [if_pos hc] at hb ⊢
        obtain ⟨hlen, hall⟩ := hb
        refine ⟨by simp [hlen], ?_⟩
        intro r hr
        rcases List.mem_or_eq_of_mem_set hr with hr' | rfl
        · exact hall r hr'
        · rw [List.length_set]
          exact hall _ (getD_mem [] hy.2)
      · rw [if_neg hc] at hb ⊢
        rw [hb] at hy
        simp at hy
    · cases hset
  · cases hset

/-- **C9, counterexample.**  "Exactly height rows" fails: the header
`0 3` decodes successfully to a grid whose `height` field is 3 but whose
data holds zero rows (`width = 0` skips the allocation entirely). -/
theorem claim9_rect_counterexample :
    ReadPGM [['P', '2'], ['0', ' ', '3'], ['2', '5', '5']] []
      = .ok ⟨[], 0, 3, ['P', '2'], 255⟩
    ∧ (⟨[], 0, 3, ['P', '2'], 255⟩ : PGM).data.length
        ≠ (⟨[], 0, 3, ['P', '2'], 255⟩ : PGM).height.toNat := by
  exact ⟨by decide, by decide⟩

/-- **C9, amended.**  Shape invariant of the code: every successful
decode yields `height` rows of `width` elements when both dimensions are
positive and zero rows otherwise (`RectPGM` / `RectPBM`), and every
mutating operation — `Set`, `Invert`, `Flip`, `Flop`, `SetMagicNumber`,
`SetMaxValue` — preserves this shape; no operation produces a jagged
grid or changes the number of rows or the row lengths. -/
theorem claim9_rect_amended :
    (∀ (lines : List Line) (bytes : List Nat) (g : PGM),
      ReadPGM lines bytes = .ok g → RectPGM g)
    ∧ (∀ (lines : List Line) (bytes : List Nat) (b : PBM),
      ReadPBM lines bytes = .ok b → RectPBM b)
    ∧ (∀ g : PGM, RectPGM g →
        RectPGM (PGM.Invert g) ∧ RectPGM (PGM.Flip g) ∧ RectPGM (PGM.Flop g)
        ∧ (∀ m, RectPGM (PGM.SetMagicNumber g m))
        ∧ (∀ v, RectPGM (PGM.SetMaxValue g v))
        ∧ (∀ x y v g', PGM.Set g x y v = some g' → RectPGM g'))
    ∧ (∀ b : PBM, RectPBM b →
        RectPBM (PBM.Invert b) ∧ RectPBM (PBM.Flip b) ∧ RectPBM (PBM.Flop b)
        ∧ (∀ m, RectPBM (PBM.SetMagicNumber b m))
        ∧ (∀ x y v b', PBM.Set b x y v = some b' → RectPBM b')) := by
  refine ⟨fun _ _ _ h => ReadPGM_ok_rect h, fun _ _ _ h => ReadPBM_ok_rect h, ?_, ?_⟩
  · intro g hg
    exact ⟨RectPGM_invert hg, RectPGM_flip hg, RectPGM_flop hg,
      fun m => RectPGM_setMagicNumber hg m, fun v => RectPGM_setMaxValue hg v,
      fun _ _ _ _ hset => RectPGM_set hset hg⟩
  · intro b hb
    exact ⟨RectPBM_invert hb, RectPBM_flip hb, RectPBM_flop hb,
      fun m => RectPBM_setMagicNumber hb m,
      fun _ _ _ _ hset => RectPBM_set hset hb⟩

/-- Witness for the amended C9: the decoded 2×1 grid and its inversion
have the invariant shape. -/
theorem claim9_rect_amended_witness :
    RectPGM ⟨[[1, 2]], 2, 1, ['P', '2'], 255⟩
    ∧ RectPGM (PGM.Invert ⟨[[1, 2]], 2, 1, ['P', '2'], 255⟩) :=
  ⟨claim9_rect_amended.1 [['P', '2'], ['2', ' ', '1'], ['2', '5', '5'], ['1', ' ', '2']]
      [] ⟨[[1, 2]], 2, 1, ['P', '2'], 255⟩ (by decide),
   (claim9_rect_amended.2.2.1 ⟨[[1, 2]], 2, 1, ['P', '2'], 255⟩ (by decide)).1⟩

/-! ## Lemmas: round-tripping the ASCII writers -/

/-- Indexing a list by `range` of its own length is just mapping it. -/
theorem range_map_getD {α β : Type} (d : α) (f : α → β) (l : List α) :
    (List.range l.length).map (fun j => f (l.getD j d)) = l.map f := by
  apply List.ext_getElem?
  intro i
  rw [List.getElem?_map, List.getElem?_map]
  by_cases hi : i < l.length
  · rw [List.getElem?_range hi, List.getElem?_eq_getElem hi]
    simp only [Option.map_some']
    congr 1
    rw [List.getD_eq_getElem?_getD, List.getElem?_eq_getElem hi]
    rfl
  · have h1 : (List.range l.length)[i]? = none := by
      rw [List.getElem?_eq_none]
      simpa using by omega
    have h2 : l[i]? = none := List.getElem?_eq_none (by omega)
    rw [h1, h2]
    rfl

theorem fillRowWith_bound {α : Type} (P : α → Prop) (store : Int → α)
    (hstore : ∀ pixel, P (store pixel)) :
    ∀ (ts : List Line) (j : Nat) (row r : List α),
      fillRowWith store ts j row = .ok r → (∀ a ∈ row, P a) → ∀ a ∈ r, P a := by
  intro ts
  induction ts with
  | nil =>
    intro j row r h hrow
    rw [fillRowWith_nil] at h
    cases h
    exact hrow
  | cons t ts ih =>
    intro j row r h hrow
    cases hat : atoi t with
    | none => rw [fillRowWith_cons_none _ _ _ _ hat] at h; cases h
    | some pixel =>
      rw [fillRowWith_cons_some _ _ _ _ hat] at h
      split at h
      · refine ih _ _ _ h ?_
        intro a ha
        rcases List.mem_or_eq_of_mem_set ha with ha' | rfl
        · exact hrow a ha'
        · exact hstore pixel
      · cases h

theorem readRowsWith_bound {α : Type} (P : α → Prop) (zero : α) (store : Int → α)
    (hzero : P zero) (hstore : ∀ pixel, P (store pixel)) (w : Nat) :
    ∀ (fuel : Nat) (ls : List Line) (rows : List (List α)),
      readRowsWith zero store w fuel ls = .ok rows →
      ∀ r ∈ rows, ∀ a ∈ r, P a := by
  intro fuel
  induction fuel with
  | zero =>
    intro ls rows h
    rw [readRowsWith_zero] at h
    cases h
    intro r hr
    simp at hr
  | succ fuel ih =>
    intro ls rows h
    rw [readRowsWith_succ] at h
    split at h
    · cases h
    · cases h
    · next row hfill =>
      split at h
      · cases h
      · cases h
      · next rows0 hrec =>
        cases h
        intro r hr
        rcases List.mem_cons.mp hr with rfl | hmem
        · exact fillRowWith_bound P store hstore _ _ _ _ hfill
            (fun a ha => (List.eq_of_mem_replicate ha) ▸ hzero)
        · exact ih _ _ hrec r hmem

/-- Pixels of a P2-decoded grid are `uint8` values. -/
theorem ReadPGM_ok_pixels {lines : List Line} {bytes : List Nat} {g : PGM}
    (h : ReadPGM lines bytes = .ok g) (hm : g.magicNumber = ['P', '2']) :
    ∀ r ∈ g.data, ∀ p ∈ r, p < 256 := by
  simp only [ReadPGM] at h
  split at h
  · cases h
  · next hmagic =>
    split at h
    · cases h
    · split at h
      · cases h
      · split at h
        · split at h
          · split at h
            · cases h
            · cases h
            · next data hrows =>
              cases h
              unfold readRowsPGM at hrows
              exact readRowsWith_bound (fun p => p < 256) _ _ (by norm_num)
                (fun pixel => by omega) _ _ _ _ hrows
          · next hnP2 =>
            split at h
            · split at h
              · cases h
              · cases h
                exact absurd hm hnP2
            · cases h
              exact absurd hm hnP2
        · cases h
          intro r hr
          simp at hr

/-- `strings.Fields` undoes the writer's token-plus-space concatenation. -/
theorem fields_flatten_tokens :
    ∀ (toks : List (List Char)),
      (∀ t ∈ toks, t ≠ [] ∧ ∀ c ∈ t, isSpaceChar c = false) →
      fields ((toks.map (fun t => t ++ [' '])).flatten) = toks := by
  intro toks
  induction toks with
  | nil =>
    intro _
    simpa using fields_nil
  | cons t ts ih =>
    intro hall
    obtain ⟨hne, hnw⟩ := hall t (List.mem_cons_self _ _)
    rw [List.map_cons, List.flatten_cons]
    have hassoc : (t ++ [' ']) ++ (ts.map (fun t => t ++ [' '])).flatten
        = t ++ ' ' :: (ts.map (fun t => t ++ [' '])).flatten := by
      rw [List.append_assoc]
      rfl
    rw [hassoc, fields_token _ hne hnw,
      ih (fun u hu => hall u (List.mem_cons_of_mem _ hu))]

/-- Reading one row line produced by `Save`: the scanner returns the
trimmed line and `Fields` recovers exactly the written tokens. -/
theorem rowLine_read {α : Type} (tok : α → List Char)
    (htok : ∀ a, tok a ≠ [] ∧ ∀ c ∈ tok a, isSpaceChar c = false ∧ c ≠ '#')
    (r : List α) (hne : r ≠ []) (rest : List Line) :
    readNextLine (((r.map (fun p => tok p ++ [' '])).flatten) :: rest)
        = (trim (((r.map (fun p => tok p ++ [' '])).flatten)), rest)
      ∧ fields (trim (((r.map (fun p => tok p ++ [' '])).flatten))) = r.map tok := by
  obtain ⟨p, ps, rfl⟩ := List.exists_cons_of_ne_nil hne
  obtain ⟨c, cs, hcc⟩ := List.exists_cons_of_ne_nil (htok p).1
  have hc : c ∈ tok p := by
    rw [hcc]
    exact List.mem_cons_self _ _
  have hline : (((p :: ps).map (fun q => tok q ++ [' '])).flatten)
      = c :: (cs ++ ' ' :: ((ps.map (fun q => tok q ++ [' '])).flatten)) := by
    rw [List.map_cons, List.flatten_cons, hcc]
    simp [List.append_assoc]
  constructor
  · rw [hline]
    exact readNextLine_encLine rest ((htok p).2 c hc).1 ((htok p).2 c hc).2
  · rw [fields_trim]
    have hmm : ((p :: ps).map (fun q => tok q ++ [' '])).flatten
        = (((p :: ps).map tok).map (fun t => t ++ [' '])).flatten := by
      rw [List.map_map]
      rfl
    rw [hmm, fields_flatten_tokens]
    intro t ht
    obtain ⟨q, _, rfl⟩ := List.mem_map.mp ht
    exact ⟨(htok q).1, fun c' hc' => ((htok q).2 c' hc').1⟩

/-- The ASCII body loop, fed exactly the lines `Save` writes for `rows`,
reproduces `rows`: each line tokenises back to the written tokens and
each token parses and stores back to the original pixel. -/
theorem readRowsWith_encoded {α : Type} (zero : α) (store : Int → α)
    (tok : α → List Char) (w : Nat) (hw : 0 < w)
    (htok : ∀ a, tok a ≠ [] ∧ ∀ c ∈ tok a, isSpaceChar c = false ∧ c ≠ '#') :
    ∀ (rows : List (List α)),
      (∀ r ∈ rows, r.length = w) →
      (∀ r ∈ rows, ∀ a ∈ r,
        (atoi (tok a)).isSome ∧ store ((atoi (tok a)).getD 0) = a) →
      readRowsWith zero store w rows.length
        (rows.map (fun r => ((r.map (fun p => tok p ++ [' '])).flatten))) = .ok rows := by
  intro rows
  induction rows with
  | nil =>
    intro _ _
    rw [List.length_nil, readRowsWith_zero]
  | cons r rs ih =>
    intro hlen hval
    have hrw : r.length = w := hlen r (List.mem_cons_self _ _)
    have hr_ne : r ≠ [] := by
      intro h0
      rw [h0] at hrw
      simp at hrw
      omega
    obtain ⟨hread, hfields⟩ := rowLine_read tok htok r hr_ne
      (rs.map (fun r => ((r.map (fun p => tok p ++ [' '])).flatten)))
    rw [List.length_cons, List.map_cons, readRowsWith_succ, hread]
    simp only [hfields]
    have hparse : ∀ t ∈ r.map tok, (atoi t).isSome := by
      intro t ht
      obtain ⟨a, ha, rfl⟩ := List.mem_map.mp ht
      exact (hval r (List.mem_cons_self _ _) a ha).1
    rw [fillRowWith_ok store (r.map tok) 0 (List.replicate w zero)
      (by simp [hrw]) hparse]
    have hback : (r.map tok).map (fun t => store ((atoi t).getD 0)) = r := by
      rw [List.map_map]
      have hcongr : r.map ((fun t => store ((atoi t).getD 0)) ∘ tok) = r.map id := by
        apply List.map_congr_left
        intro a ha
        exact (hval r (List.mem_cons_self _ _) a ha).2
      rw [hcongr, List.map_id]
    have hdrop : (List.replicate w zero).drop (0 + (r.map tok).length) = [] := by
      simp [hrw]
    rw [List.take_zero, hback, hdrop, List.nil_append, List.append_nil]
    rw [ih (fun u hu => hlen u (List.mem_cons_of_mem _ hu))
      (fun u hu => hval u (List.mem_cons_of_mem _ hu))]

theorem natChars_tok (a : Nat) :
    natChars a ≠ [] ∧ ∀ c ∈ natChars a, isSpaceChar c = false ∧ c ≠ '#' := by
  refine ⟨natChars_ne_nil a, ?_⟩
  intro c hc
  obtain ⟨d, hd, rfl⟩ := mem_natChars hc
  exact ⟨isSpaceChar_digitChar hd, digitChar_ne_hash hd⟩

theorem boolChars_tok (b : Bool) :
    (if b then ['1'] else ['0']) ≠ []
      ∧ ∀ c ∈ (if b then ['1'] else ['0']), isSpaceChar c = false ∧ c ≠ '#' := by
  cases b <;> exact ⟨by decide, by decide⟩

/-- Decoding the file `Save` writes for a P2 grid of the decode-invariant
shape gives back the grid. -/
theorem savePGM_decode (g : PGM) (hm : g.magicNumber = ['P', '2'])
    (hrect : RectPGM g) (hpix : ∀ r ∈ g.data, ∀ p ∈ r, p < 256) :
    ReadPGM (PGM.Save g) [] = .ok g := by
  obtain ⟨data, w, h, m, mx⟩ := g
  simp only at hm hpix
  subst hm
  rw [RectPGM] at hrect
  simp only at hrect
  rw [PGM.Save]
  simp only
  rw [ReadPGM_P2]
  by_cases hc : 0 < w ∧ 0 < h
  · rw [if_pos hc]
    rw [if_pos hc] at hrect
    obtain ⟨hlen, hall⟩ := hrect
    have hrows : (List.range h.toNat).map (fun i =>
        ((List.range w.toNat).map
          (fun j => natChars ((data.getD i []).getD j 0) ++ [' '])).flatten)
        = data.map (fun r => ((r.map (fun p => natChars p ++ [' '])).flatten)) := by
      rw [← hlen, range_map_getD ([] : List Nat)
        (fun r => ((List.range w.toNat).map
          (fun j => natChars (r.getD j 0) ++ [' '])).flatten) data]
      apply List.map_congr_left
      intro r hr
      rw [← hall r hr, range_map_getD 0 (fun p => natChars p ++ [' ']) r]
    rw [hrows, show h.toNat = data.length from hlen.symm]
    unfold readRowsPGM
    rw [readRowsWith_encoded 0 (fun pixel => (pixel % 256).toNat) natChars w.toNat
      (by omega) natChars_tok data hall ?hval]
    case hval =>
      intro r hr a ha
      have hb := hpix r hr a ha
      rw [atoi_natChars]
      constructor
      · rfl
      · show ((a : Int) % 256).toNat = a
        omega
  · rw [if_neg hc]
    rw [if_neg hc] at hrect
    rw [hrect]

/-- Decoding the file `Save` writes for a P1 grid of the decode-invariant
shape gives back the grid. -/
theorem savePBM_decode (b : PBM) (hm : b.magicNumber = ['P', '1'])
    (hrect : RectPBM b) :
    ReadPBM (PBM.Save b) [] = .ok b := by
  obtain ⟨data, w, h, m⟩ := b
  simp only at hm
  subst hm
  rw [RectPBM] at hrect
  simp only at hrect
  rw [PBM.Save]
  simp only
  rw [ReadPBM_P1]
  by_cases hc : 0 < w ∧ 0 < h
  · rw [if_pos hc]
    rw [if_pos hc] at hrect
    obtain ⟨hlen, hall⟩ := hrect
    have hrows : (List.range h.toNat).map (fun i =>
        ((List.range w.toNat).map
          (fun j => (if (data.getD i []).getD j false then ['1'] else ['0'])
            ++ [' '])).flatten)
        = data.map (fun r =>
            ((r.map (fun p => (if p then ['1'] else ['0']) ++ [' '])).flatten)) := by
      rw [← hlen, range_map_getD ([] : List Bool)
        (fun r => ((List.range w.toNat).map
          (fun j => (if r.getD j false then ['1'] else ['0']) ++ [' '])).flatten) data]
      apply List.map_congr_left
      intro r hr
      rw [← hall r hr,
        range_map_getD false (fun p => (if p then ['1'] else ['0']) ++ [' ']) r]
    rw [hrows, show h.toNat = data.length from hlen.symm]
    unfold readRowsPBM
    rw [readRowsWith_encoded false (fun pixel => pixel == 1)
      (fun b => if b then ['1'] else ['0']) w.toNat (by omega) boolChars_tok
      data hall ?hval]
    case hval =>
      intro r _ a _
      cases a <;> exact ⟨by decide, by decide⟩
  · rw [if_neg hc]
    rw [if_neg hc] at hrect
    rw [hrect]

/-- **C4.** ASCII round trip: any grid obtained from a successful ASCII
(P2 resp. P1) decode, when saved and decoded again, yields the same grid
— same dimensions, same pixel at every position, same magic number, and
(for greyscale) the same max value. -/
theorem claim4_ascii_round_trip :
    (∀ (lines : List Line) (bytes : List Nat) (g : PGM),
      ReadPGM lines bytes = .ok g → g.magicNumber = ['P', '2'] →
      ReadPGM (PGM.Save g) [] = .ok g)
    ∧ (∀ (lines : List Line) (bytes : List Nat) (b : PBM),
      ReadPBM lines bytes = .ok b → b.magicNumber = ['P', '1'] →
      ReadPBM (PBM.Save b) [] = .ok b) := by
  constructor
  · intro lines bytes g h hm
    exact savePGM_decode g hm (ReadPGM_ok_rect h) (ReadPGM_ok_pixels h hm)
  · intro lines bytes b h hm
    exact savePBM_decode b hm (ReadPBM_ok_rect h)

/-- Witness for C4: a concrete 2×1 P2 file decodes, saves and re-decodes
to the same grid. -/
theorem claim4_ascii_round_trip_witness :
    ReadPGM (PGM.Save ⟨[[1, 2]], 2, 1, ['P', '2'], 255⟩) []
      = .ok ⟨[[1, 2]], 2, 1, ['P', '2'], 255⟩ :=
  claim4_ascii_round_trip.1
    [['P', '2'], ['2', ' ', '1'], ['2', '5', '5'], ['1', ' ', '2']] []
    ⟨[[1, 2]], 2, 1, ['P', '2'], 255⟩ (by decide) (by decide)

end Netpbm
